import Mathlib

/-!
# Verification of the `bevy_wgpu2` render-graph runner

A shallow embedding of `src/pipelined/bevy_wgpu2/src/render_graph_runner.rs`
(`WgpuRenderGraphRunner::run` / `run_graph`), together with the graph data
model it operates on (`RenderGraph`, `Edge`, `NodeState`, `SlotValue`,
`RenderGraphContext`), which lives in `bevy_render2` and is modelled from the
specification.

The runner's `while let Some(node_state) = node_queue.pop_back()` loop is
embedded with an explicit fuel parameter; exhausting fuel yields the
distinguished result `RunResult.outOfFuel`, so "the run terminates" is the
statement that beyond some fuel bound the result is never `outOfFuel`.
Rust panics (`expect`, `unwrap`, out-of-bounds indexing, `assert_eq!`) are
embedded as the distinguished result `RunResult.crash`.

The `VecDeque` work queue is represented back-to-front: the list head is the
deque's *back* (the element `pop_back` removes next), so `push_front` appends
at the end of the list and the initial `collect()` (which pushes at the back)
produces the reversed seed list.
-/

namespace RenderGraphRunner

/-- Node identifiers (`NodeId` in `bevy_render2`). -/
abbrev NodeId := Nat

/-- Modelled from the spec: the closed set of type tags for data flowing
between nodes (`SlotType` in `bevy_render2`: buffer, texture view, sampler,
entity). -/
inductive SlotType where
  | buffer
  | textureView
  | sampler
  | entity
  deriving DecidableEq, Repr

/-- Modelled from the spec: a tagged value routed between node slots
(`SlotValue`); each variant carries a cheap handle/id, not an owned
resource. -/
inductive SlotValue where
  | buffer (id : Nat)
  | textureView (id : Nat)
  | sampler (id : Nat)
  | entity (id : Nat)
  deriving DecidableEq, Repr

/-- Modelled from the spec: the pure accessor reporting a value's type tag
(`SlotValue::slot_type`). -/
def SlotValue.slotType : SlotValue → SlotType
  | .buffer _ => .buffer
  | .textureView _ => .textureView
  | .sampler _ => .sampler
  | .entity _ => .entity

/-- Modelled from the spec: a named, typed slot declaration (`SlotInfo`). -/
structure SlotInfo where
  name : String
  slotType : SlotType
  deriving DecidableEq, Repr

/-- Modelled from the spec: a slot label as it appears in the
`MismatchedInputSlotType` error (`SlotLabel`), either an index or a name. -/
inductive SlotLabel where
  | index (i : Nat)
  | name (s : String)
  deriving DecidableEq, Repr

/-- Modelled from the spec: an edge between two nodes (`Edge` in
`bevy_render2`).  As in the source, `input_node` is the *destination* (the
node receiving the dependency) and `output_node` is the *source*. -/
inductive Edge where
  | slotEdge (input_node : NodeId) (input_index : Nat)
      (output_node : NodeId) (output_index : Nat)
  | nodeEdge (input_node : NodeId) (output_node : NodeId)
  deriving DecidableEq, Repr

/-- The destination node of an edge (`Edge::get_input_node`). -/
def Edge.getInputNode : Edge → NodeId
  | .slotEdge dst _ _ _ => dst
  | .nodeEdge dst _ => dst

/-- The source node of an edge (`Edge::get_output_node`). -/
def Edge.getOutputNode : Edge → NodeId
  | .slotEdge _ _ src _ => src
  | .nodeEdge _ src => src

/-- The node-specific failure a node's `run` may return (`NodeRunError`),
abstracted to a message. -/
structure NodeRunError where
  msg : String
  deriving DecidableEq, Repr

/-- Modelled from the spec: a buffered request that a named sub-graph be run
with an ordered list of input values (`RunSubGraph` collected by
`RenderGraphContext`). -/
structure RunSubGraph where
  name : String
  inputs : List SlotValue
  deriving DecidableEq, Repr

/-- Modelled from the spec: the observable effect of one node invocation
through its `RenderGraphContext`: either the node fails with a
`NodeRunError`, or it succeeds having issued a sequence of output-slot
writes (index, value) — later writes to the same index win — and a sequence
of buffered sub-graph run requests, in request order. -/
inductive NodeRunResult where
  | err (e : NodeRunError)
  | ok (writes : List (Nat × SlotValue)) (subGraphRuns : List RunSubGraph)

/-- Modelled from the spec: a node of the graph (`NodeState`): stable id,
implementation type name, declared input and output slots, and the owned
implementation, embedded as a pure function from the resolved input vector
to the invocation's observable effect. -/
structure NodeState where
  id : NodeId
  type_name : String
  input_slots : List SlotInfo
  output_slots : List SlotInfo
  run : List SlotValue → NodeRunResult

/-- Modelled from the spec: a render graph (`RenderGraph`): nodes, edges, an
optional distinguished input node, and named sub-graphs. -/
inductive Graph where
  | mk (nodes : List NodeState) (edges : List Edge)
      (input_node_id : Option NodeId)
      (sub_graphs : List (String × Graph))

def Graph.nodes : Graph → List NodeState
  | .mk ns _ _ _ => ns

def Graph.edges : Graph → List Edge
  | .mk _ es _ _ => es

def Graph.input_node_id : Graph → Option NodeId
  | .mk _ _ i _ => i

def Graph.sub_graphs : Graph → List (String × Graph)
  | .mk _ _ _ s => s

/-- Modelled from the spec: look a node's state up by id
(`RenderGraph::get_node_state`). -/
def Graph.getNodeState (g : Graph) (id : NodeId) : Option NodeState :=
  g.nodes.find? (fun n => n.id == id)

/-- Modelled from the spec: the graph's distinguished input node, if any
(`RenderGraph::input_node`). -/
def Graph.inputNode (g : Graph) : Option NodeState :=
  g.input_node_id.bind g.getNodeState

/-- Modelled from the spec: retrieve a named sub-graph
(`RenderGraph::get_sub_graph`). -/
def Graph.getSubGraph (g : Graph) (name : String) : Option Graph :=
  (g.sub_graphs.find? (fun p => p.1 == name)).map Prod.snd

/-- Modelled from the spec: the inbound edges of a node, in edge-list order
(the edge component of `RenderGraph::iter_node_inputs`). -/
def Graph.inboundEdges (g : Graph) (id : NodeId) : List Edge :=
  g.edges.filter (fun e => e.getInputNode == id)

/-- Modelled from the spec: the outbound edges of a node, in edge-list order
(the edge component of `RenderGraph::iter_node_outputs`). -/
def Graph.outboundEdges (g : Graph) (id : NodeId) : List Edge :=
  g.edges.filter (fun e => e.getOutputNode == id)

/-- Modelled from the spec: the destination node states of a node's outbound
edges (`RenderGraph::iter_node_outputs` pairs each edge with the destination
node's state via `get_node_state(..).unwrap()`); `none` embeds the panic of
that `unwrap` when a destination id is not a node of the graph. -/
def Graph.successorStates (g : Graph) (id : NodeId) : Option (List NodeState) :=
  (g.outboundEdges id).mapM (fun e => g.getNodeState e.getInputNode)

/-- The runner's error type (`WgpuRenderGraphRunnerError`). -/
inductive RunnerError where
  | nodeRunError (e : NodeRunError)
  | emptyNodeOutputSlot (type_name : String) (slot_index : Nat)
      (slot_name : String)
  | missingInput (slot_index : Nat) (slot_name : String)
      (graph_name : Option String)
  | mismatchedInputSlotType (slot_index : Nat) (label : SlotLabel)
      (expected : SlotType) (actual : SlotType)
  deriving DecidableEq, Repr

/-- Result of a (sub-)run.  Every constructor carries the invocation log —
the ids of the nodes whose `run` was called, in call order, across the whole
pass (the log plays the role of the shared `WgpuRenderContext` command
stream).  `crash` embeds a Rust panic, `outOfFuel` means the fuel bound was
reached before the `while` loop finished (no verdict). -/
inductive RunResult where
  | ok (log : List NodeId)
  | err (e : RunnerError) (log : List NodeId)
  | crash (msg : String) (log : List NodeId)
  | outOfFuel (log : List NodeId)
  deriving DecidableEq, Repr

/-- The per-pass `node_outputs: HashMap<NodeId, SmallVec<SlotValue>>`,
embedded as an association list. -/
abbrev Outputs := List (NodeId × List SlotValue)

/-- `node_outputs.get(&id)` -/
def lookupOutput (outs : Outputs) (id : NodeId) : Option (List SlotValue) :=
  (outs.find? (fun p => p.1 == id)).map Prod.snd

/-- `node_outputs.contains_key(&id)` -/
def containsOutput (outs : Outputs) (id : NodeId) : Bool :=
  (lookupOutput outs id).isSome

/-- `node_outputs.insert(id, values)` -/
def insertOutput (outs : Outputs) (id : NodeId) (vs : List SlotValue) : Outputs :=
  match outs with
  | [] => [(id, vs)]
  | (k, v) :: rest =>
      if k == id then (id, vs) :: rest else (k, v) :: insertOutput rest id vs

/-- Modelled from the spec: the output-slot array a node's invocation
mutates through its context — pre-sized to the declared output count, all
slots initially unset, each write setting one index (last write wins; a
write to an out-of-range index is rejected by the context and changes
nothing). -/
def applyWrites (slotCount : Nat) (writes : List (Nat × SlotValue)) :
    List (Option SlotValue) :=
  writes.foldl (fun acc w => acc.set w.1 (some w.2))
    (List.replicate slotCount none)

/-- The output-finalization scan of `run_graph` (lines 169–181): walk the
output array in order, collecting set values; stop at the first unset slot,
reporting its index. -/
def collectOutputs : List (Option SlotValue) → Nat → Except Nat (List SlotValue)
  | [], _ => .ok []
  | some v :: rest, i => (collectOutputs rest (i + 1)).map (fun vs => v :: vs)
  | none :: _, i => .error i

/-- The external-input validation loop of `run_graph` (lines 74–95): walk
the input node's declared input slots positionally; a supplied value of the
wrong type tag yields `MismatchedInputSlotType`, an absent value yields
`MissingInput`; surplus supplied values are never inspected. -/
def validateInputs (slots : List SlotInfo) (inputs : List SlotValue)
    (graph_name : Option String) (i : Nat) : Except RunnerError (List SlotValue) :=
  match slots with
  | [] => .ok []
  | slot :: rest =>
      match inputs.get? i with
      | some v =>
          if slot.slotType ≠ v.slotType then
            .error (.mismatchedInputSlotType i (.name slot.name)
              slot.slotType v.slotType)
          else
            (validateInputs rest inputs graph_name (i + 1)).map
              (fun vs => v :: vs)
      | none => .error (.missingInput i slot.name graph_name)

/-- Outcome of the dependency check for one popped node (lines 110–136):
`ready` with the gathered `(input_index, value)` pairs in inbound-edge
order; `missing` when the first unsatisfied inbound edge has an unresolved
source (requeue); `crash` when a source id is dangling (the `unwrap` inside
`iter_node_inputs`) or a slot edge's `output_index` is out of bounds of the
source's recorded vector (the unchecked `outputs[*output_index]`). -/
inductive DepResult where
  | ready (pairs : List (Nat × SlotValue))
  | missing
  | crash (msg : String)
  deriving Repr

/-- The dependency-check loop of `run_graph` (lines 110–136), one inbound
edge at a time, in edge order, short-circuiting at the first missing
dependency or panic. -/
def gatherDeps (g : Graph) (outs : Outputs) : List Edge → DepResult
  | [] => .ready []
  | e :: rest =>
      match g.getNodeState e.getOutputNode with
      | none => .crash "get_node_state of edge source"
      | some src =>
          match e with
          | .slotEdge _ input_index _ output_index =>
              match lookupOutput outs src.id with
              | some outputs =>
                  if h : output_index < outputs.length then
                    match gatherDeps g outs rest with
                    | .ready pairs =>
                        .ready ((input_index, outputs.get ⟨output_index, h⟩) :: pairs)
                    | r => r
                  else .crash "index out of bounds"
              | none => .missing
          | .nodeEdge _ _ =>
              if containsOutput outs src.id then gatherDeps g outs rest
              else .missing

/-- `slot_indices_and_inputs.sort_by_key(|(index, _)| *index)` — a stable
sort by input-slot index.  Rust's `sort_by_key` is a stable sort; insertion
sort with `≤` on keys is the same (unique) stable sort by key. -/
def sortByIndex (pairs : List (Nat × SlotValue)) : List (Nat × SlotValue) :=
  pairs.insertionSort (fun a b => a.1 ≤ b.1)

mutual

/-- `WgpuRenderGraphRunner::run_graph` (lines 55–191): seed the queue with
the zero-input-slot nodes (`collect` pushes at the deque's back, so the
back-to-front representation is the reversed filter), validate and record
the external inputs of the distinguished input node if any, push its
successors at the deque's front, then run the main loop.  One unit of fuel
is consumed here and per loop iteration / drained request, so the
definitions are structurally recursive on `fuel` and reduce in the
kernel. -/
def run_graph (fuel : Nat) (g : Graph) (graph_name : Option String)
    (inputs : List SlotValue) (log : List NodeId) : RunResult :=
  match fuel with
  | 0 => .outOfFuel log
  | fuel + 1 =>
      let seeds := (g.nodes.filter (fun n => n.input_slots.isEmpty)).reverse
      match g.inputNode with
      | some input_node =>
          match validateInputs input_node.input_slots inputs graph_name 0 with
          | .error e => .err e log
          | .ok input_values =>
              match g.successorStates input_node.id with
              | none => .crash "node exists" log
              | some succs =>
                  runLoop fuel g (seeds ++ succs)
                    (insertOutput [] input_node.id input_values) log
      | none => runLoop fuel g seeds [] log
termination_by structural fuel

/-- The `'handle_node: while let Some(node_state) = node_queue.pop_back()`
loop of `run_graph` (lines 104–187).  The queue is represented
back-to-front (head = next `pop_back`), so requeueing via `push_front`
appends at the end. -/
def runLoop (fuel : Nat) (g : Graph) (queue : List NodeState)
    (outs : Outputs) (log : List NodeId) : RunResult :=
  match fuel with
  | 0 => .outOfFuel log
  | fuel + 1 =>
      match queue with
      | [] => .ok log
      | node :: rest =>
          -- skip nodes that are already processed
          if containsOutput outs node.id then
            runLoop fuel g rest outs log
          else
            match gatherDeps g outs (g.inboundEdges node.id) with
            | .missing => runLoop fuel g (rest ++ [node]) outs log
            | .crash m => .crash m log
            | .ready pairs =>
                let nodeInputs := (sortByIndex pairs).map Prod.snd
                if nodeInputs.length ≠ node.input_slots.length then
                  .crash "assertion failed: inputs.len() == node_state.input_slots.len()" log
                else
                  let log' := log ++ [node.id]
                  match node.run nodeInputs with
                  | .err e => .err (.nodeRunError e) log'
                  | .ok writes subRuns =>
                      match drainSubGraphs fuel g subRuns log' with
                      | .ok log'' =>
                          match collectOutputs
                              (applyWrites node.output_slots.length writes) 0 with
                          | .error i =>
                              match node.output_slots.get? i with
                              | none => .crash "get_slot unwrap" log''
                              | some slot =>
                              .err (.emptyNodeOutputSlot node.type_name i slot.name)
                                log''
                          | .ok values =>
                              match g.successorStates node.id with
                              | none => .crash "node exists" log''
                              | some succs =>
                                  runLoop fuel g (rest ++ succs)
                                    (insertOutput outs node.id values) log''
                      | r => r
termination_by structural fuel

/-- The sub-graph drain of `run_graph` (lines 154–166): for each buffered
request in order, resolve the named sub-graph (`expect` panics when
missing) and recursively run it with the request's inputs; a failing
sub-run propagates immediately. -/
def drainSubGraphs (fuel : Nat) (g : Graph) (subRuns : List RunSubGraph)
    (log : List NodeId) : RunResult :=
  match subRuns with
  | [] => .ok log
  | r :: rest =>
      match fuel with
      | 0 => .outOfFuel log
      | fuel + 1 =>
          match g.getSubGraph r.name with
          | none =>
              .crash "sub graph exists because it was validated when queued." log
          | some sub =>
              match run_graph fuel sub (some r.name) r.inputs log with
              | .ok log' => drainSubGraphs fuel g rest log'
              | other => other
termination_by structural fuel

end

/-- `WgpuRenderGraphRunner::run` (lines 40–53): run the root graph with no
external inputs; on success, `finish` the render context and submit the
resulting command buffer (if any) to the queue.  The second component is
the list of command buffers submitted, each a recorded command stream. -/
def run (fuel : Nat) (g : Graph) : RunResult × List (List NodeId) :=
  match run_graph fuel g none [] [] with
  | .ok log => (.ok log, if log.isEmpty then [] else [log])
  | r => (r, [])

/-! ## Basic lemmas about the per-pass output map -/

theorem lookupOutput_insert_self (outs : Outputs) (id : NodeId)
    (vs : List SlotValue) : lookupOutput (insertOutput outs id vs) id = some vs := by
  induction outs with
  | nil => simp [insertOutput, lookupOutput]
  | cons p rest ih =>
      obtain ⟨k, v⟩ := p
      by_cases hp : k = id
      · simp [insertOutput, lookupOutput, hp]
      · rw [show insertOutput ((k, v) :: rest) id vs
            = (k, v) :: insertOutput rest id vs by
          simp [insertOutput, hp]]
        rw [show lookupOutput ((k, v) :: insertOutput rest id vs) id
            = lookupOutput (insertOutput rest id vs) id by
          simp [lookupOutput, List.find?, beq_eq_false_iff_ne.mpr hp]]
        exact ih

theorem lookupOutput_insert_ne (outs : Outputs) (id x : NodeId)
    (vs : List SlotValue) (h : x ≠ id) :
    lookupOutput (insertOutput outs id vs) x = lookupOutput outs x := by
  induction outs with
  | nil =>
      simp [insertOutput, lookupOutput, List.find?,
        beq_eq_false_iff_ne.mpr (Ne.symm h)]
  | cons p rest ih =>
      obtain ⟨k, v⟩ := p
      by_cases hp : k = id
      · rw [show insertOutput ((k, v) :: rest) id vs = (id, vs) :: rest by
            simp [insertOutput, hp]]
        subst hp
        simp [lookupOutput, List.find?, beq_eq_false_iff_ne.mpr (Ne.symm h)]
      · rw [show insertOutput ((k, v) :: rest) id vs
            = (k, v) :: insertOutput rest id vs by
          simp [insertOutput, hp]]
        by_cases hx : k = x
        · simp [lookupOutput, List.find?, hx]
        · simp only [lookupOutput, List.find?,
            beq_eq_false_iff_ne.mpr hx] at ih ⊢
          exact ih

theorem containsOutput_insert (outs : Outputs) (id x : NodeId) (vs : List SlotValue) :
    containsOutput (insertOutput outs id vs) x =
      (containsOutput outs x || (x == id)) := by
  by_cases h : x = id
  · subst h; simp [containsOutput, lookupOutput_insert_self]
  · simp [containsOutput, lookupOutput_insert_ne outs id x vs h, h]

theorem containsOutput_insert_mono (outs : Outputs) (id x : NodeId)
    (vs : List SlotValue) (h : containsOutput outs x = true) :
    containsOutput (insertOutput outs id vs) x = true := by
  simp [containsOutput_insert, h]

/-! ## Single-step equations for the main loop -/

theorem runLoop_zero (g : Graph) (queue : List NodeState) (outs : Outputs)
    (log : List NodeId) : runLoop 0 g queue outs log = .outOfFuel log := rfl

theorem runLoop_nil (fuel : Nat) (g : Graph) (outs : Outputs) (log : List NodeId) :
    runLoop (fuel + 1) g [] outs log = .ok log := rfl

/-- Lines 105–108: a popped node whose output vector is already recorded is
skipped — the iteration does nothing but drop it from the queue. -/
theorem runLoop_skip (fuel : Nat) (g : Graph) (node : NodeState)
    (rest : List NodeState) (outs : Outputs) (log : List NodeId)
    (h : containsOutput outs node.id = true) :
    runLoop (fuel + 1) g (node :: rest) outs log = runLoop fuel g rest outs log := by
  rw [runLoop]
  simp [h]

/-- Lines 122–134: when the dependency check finds an unresolved source, the
popped node is pushed back at the front of the deque (the end of the
back-to-front list) and the iteration is abandoned without error. -/
theorem runLoop_requeue (fuel : Nat) (g : Graph) (node : NodeState)
    (rest : List NodeState) (outs : Outputs) (log : List NodeId)
    (hskip : containsOutput outs node.id = false)
    (hdep : gatherDeps g outs (g.inboundEdges node.id) = .missing) :
    runLoop (fuel + 1) g (node :: rest) outs log =
      runLoop fuel g (rest ++ [node]) outs log := by
  rw [runLoop]
  simp [hskip, hdep]

/-- A panic inside the dependency check aborts the whole run. -/
theorem runLoop_depCrash (fuel : Nat) (g : Graph) (node : NodeState)
    (rest : List NodeState) (outs : Outputs) (log : List NodeId) (m : String)
    (hskip : containsOutput outs node.id = false)
    (hdep : gatherDeps g outs (g.inboundEdges node.id) = .crash m) :
    runLoop (fuel + 1) g (node :: rest) outs log = .crash m log := by
  rw [runLoop]
  simp [hskip, hdep]

/-- Line 145: the `assert_eq!(inputs.len(), node_state.input_slots.len())`
panic, when the gathered-and-sorted input count disagrees with the node's
declared input-slot count. -/
theorem runLoop_assertCrash (fuel : Nat) (g : Graph) (node : NodeState)
    (rest : List NodeState) (outs : Outputs) (log : List NodeId)
    (pairs : List (Nat × SlotValue))
    (hskip : containsOutput outs node.id = false)
    (hdep : gatherDeps g outs (g.inboundEdges node.id) = .ready pairs)
    (hlen : ((sortByIndex pairs).map Prod.snd).length ≠ node.input_slots.length) :
    runLoop (fuel + 1) g (node :: rest) outs log =
      .crash "assertion failed: inputs.len() == node_state.input_slots.len()" log := by
  rw [runLoop]
  simp only [hskip, Bool.false_eq_true, if_false, hdep]
  rw [if_pos hlen]

/-- Lines 150–152: a failing node invocation is wrapped as `NodeRunError`
and returned at once; the node's id is the last entry of the log. -/
theorem runLoop_runErr (fuel : Nat) (g : Graph) (node : NodeState)
    (rest : List NodeState) (outs : Outputs) (log : List NodeId)
    (pairs : List (Nat × SlotValue)) (e : NodeRunError)
    (hskip : containsOutput outs node.id = false)
    (hdep : gatherDeps g outs (g.inboundEdges node.id) = .ready pairs)
    (hlen : ((sortByIndex pairs).map Prod.snd).length = node.input_slots.length)
    (hrun : node.run ((sortByIndex pairs).map Prod.snd) = .err e) :
    runLoop (fuel + 1) g (node :: rest) outs log =
      .err (.nodeRunError e) (log ++ [node.id]) := by
  rw [runLoop]
  simp only [hskip, Bool.false_eq_true, if_false, hdep]
  rw [if_neg (by simp [hlen])]
  simp [hrun]

/-- Lines 147–186, successful invocation: the node runs on the sorted input
vector, its buffered sub-graph requests are drained, its output array is
finalized, and on success the outputs are recorded and its successors
pushed at the deque's front. -/
theorem runLoop_invoke (fuel : Nat) (g : Graph) (node : NodeState)
    (rest : List NodeState) (outs : Outputs) (log : List NodeId)
    (pairs : List (Nat × SlotValue)) (writes : List (Nat × SlotValue))
    (subRuns : List RunSubGraph)
    (hskip : containsOutput outs node.id = false)
    (hdep : gatherDeps g outs (g.inboundEdges node.id) = .ready pairs)
    (hlen : ((sortByIndex pairs).map Prod.snd).length = node.input_slots.length)
    (hrun : node.run ((sortByIndex pairs).map Prod.snd) = .ok writes subRuns) :
    runLoop (fuel + 1) g (node :: rest) outs log =
      (match drainSubGraphs fuel g subRuns (log ++ [node.id]) with
       | .ok log'' =>
           match collectOutputs (applyWrites node.output_slots.length writes) 0 with
           | .error i =>
               match node.output_slots.get? i with
               | none => .crash "get_slot unwrap" log''
               | some slot =>
                   .err (.emptyNodeOutputSlot node.type_name i slot.name) log''
           | .ok values =>
               match g.successorStates node.id with
               | none => .crash "node exists" log''
               | some succs =>
                   runLoop fuel g (rest ++ succs)
                     (insertOutput outs node.id values) log''
       | r => r) := by
  rw [runLoop]
  simp only [hskip, Bool.false_eq_true, if_false, hdep]
  rw [if_neg (by simp [hlen])]
  rw [hrun]

/-! ## Node lookup and dependency-gathering lemmas -/

/-- Whether an edge is a slot edge (carries data) or a node edge. -/
def Edge.isSlotEdge : Edge → Bool
  | .slotEdge _ _ _ _ => true
  | .nodeEdge _ _ => false

/-- The `(input_index, value)` pairs the dependency check gathers from a
list of inbound edges when every dependency is satisfied: one pair per slot
edge, carrying exactly the value the source node recorded at the edge's
`output_index`. -/
def slotPairs (outs : Outputs) (es : List Edge) : List (Nat × SlotValue) :=
  es.filterMap (fun e =>
    match e with
    | .slotEdge _ input_index output_node output_index =>
        (lookupOutput outs output_node).bind (fun vs =>
          (vs.get? output_index).map (fun v => (input_index, v)))
    | .nodeEdge _ _ => none)

theorem getNodeState_some_id (g : Graph) (id : NodeId) (s : NodeState)
    (h : g.getNodeState id = some s) : s.id = id := by
  have := List.find?_some h
  simpa using this

theorem getNodeState_mem (g : Graph) (id : NodeId) (s : NodeState)
    (h : g.getNodeState id = some s) : s ∈ g.nodes :=
  List.mem_of_find?_eq_some h

theorem find?_id_of_nodup (l : List NodeState)
    (hnd : (l.map (fun n => n.id)).Nodup) (n : NodeState) (hn : n ∈ l) :
    l.find? (fun m => m.id == n.id) = some n := by
  induction l with
  | nil => cases hn
  | cons h t ih =>
      rcases List.mem_cons.mp hn with he | ht
      · subst he; simp [List.find?]
      · simp only [List.map, List.nodup_cons] at hnd
        have hne : h.id ≠ n.id := by
          intro he
          exact hnd.1 (he ▸ List.mem_map_of_mem (fun m => m.id) ht)
        simp only [List.find?, beq_eq_false_iff_ne.mpr hne]
        exact ih hnd.2 ht

theorem getNodeState_of_mem (g : Graph)
    (hnd : (g.nodes.map (fun n => n.id)).Nodup) (n : NodeState)
    (hn : n ∈ g.nodes) : g.getNodeState n.id = some n :=
  find?_id_of_nodup g.nodes hnd n hn

theorem id_inj_of_nodup (g : Graph)
    (hnd : (g.nodes.map (fun n => n.id)).Nodup) (m n : NodeState)
    (hm : m ∈ g.nodes) (hn : n ∈ g.nodes) (h : m.id = n.id) : m = n := by
  have h1 := getNodeState_of_mem g hnd m hm
  have h2 := getNodeState_of_mem g hnd n hn
  rw [h] at h1
  rw [h1] at h2
  exact Option.some_inj.mp h2

theorem containsOutput_of_lookup (outs : Outputs) (id : NodeId)
    (vs : List SlotValue) (h : lookupOutput outs id = some vs) :
    containsOutput outs id = true := by
  simp [containsOutput, h]

theorem lookup_of_containsOutput (outs : Outputs) (id : NodeId)
    (h : containsOutput outs id = true) :
    ∃ vs, lookupOutput outs id = some vs := by
  cases hl : lookupOutput outs id with
  | none => simp [containsOutput, hl] at h
  | some vs => exact ⟨vs, rfl⟩

theorem lookup_none_of_not_contains (outs : Outputs) (id : NodeId)
    (h : containsOutput outs id = false) : lookupOutput outs id = none := by
  cases hl : lookupOutput outs id with
  | none => rfl
  | some vs => simp [containsOutput, hl] at h

/-- When every inbound edge's source state exists, every source is resolved,
and every slot edge's `output_index` is within the source's recorded vector,
the dependency check succeeds and gathers exactly `slotPairs`. -/
theorem gatherDeps_ready (g : Graph) (outs : Outputs) (es : List Edge)
    (hsrc : ∀ e ∈ es, ∃ s, g.getNodeState e.getOutputNode = some s)
    (hres : ∀ e ∈ es, containsOutput outs e.getOutputNode = true)
    (hbound : ∀ dst ii src oi, Edge.slotEdge dst ii src oi ∈ es →
      ∀ vs, lookupOutput outs src = some vs → oi < vs.length) :
    gatherDeps g outs es = .ready (slotPairs outs es) := by
  induction es with
  | nil => rfl
  | cons e rest ih =>
      have ihr := ih (fun e' he' => hsrc e' (List.mem_cons_of_mem e he'))
        (fun e' he' => hres e' (List.mem_cons_of_mem e he'))
        (fun dst ii src oi hmem vs hl =>
          hbound dst ii src oi (List.mem_cons_of_mem e hmem) vs hl)
      obtain ⟨s, hs⟩ := hsrc e (List.mem_cons_self e rest)
      have hsid := getNodeState_some_id g _ s hs
      cases e with
      | slotEdge dst ii src oi =>
          simp only [Edge.getOutputNode] at hs hsid
          obtain ⟨vs, hvs⟩ := lookup_of_containsOutput outs _
            (hres _ (List.mem_cons_self _ rest))
          simp only [Edge.getOutputNode] at hvs
          have hoi : oi < vs.length :=
            hbound dst ii src oi (List.mem_cons_self _ rest) vs hvs
          rw [gatherDeps]
          simp only [Edge.getOutputNode, hs]
          rw [hsid, hvs]
          simp [hoi, ihr, slotPairs, List.filterMap_cons, hvs,
            List.get?_eq_get hoi]
      | nodeEdge dst src =>
          simp only [Edge.getOutputNode] at hs hsid
          have hc := hres _ (List.mem_cons_self _ rest)
          simp only [Edge.getOutputNode] at hc
          rw [gatherDeps]
          simp only [Edge.getOutputNode, hs]
          rw [hsid]
          simp [hc, ihr, slotPairs, List.filterMap_cons]

/-- When some inbound edge's source is unresolved (and no earlier edge
panics), the dependency check reports `missing` — the node will be
requeued, not fail. -/
theorem gatherDeps_missing (g : Graph) (outs : Outputs) (es : List Edge)
    (hsrc : ∀ e ∈ es, ∃ s, g.getNodeState e.getOutputNode = some s)
    (hbound : ∀ dst ii src oi, Edge.slotEdge dst ii src oi ∈ es →
      ∀ vs, lookupOutput outs src = some vs → oi < vs.length)
    (hmiss : ∃ e ∈ es, containsOutput outs e.getOutputNode = false) :
    gatherDeps g outs es = .missing := by
  induction es with
  | nil => simp at hmiss
  | cons e rest ih =>
      obtain ⟨s, hs⟩ := hsrc e (List.mem_cons_self e rest)
      have hsid := getNodeState_some_id g _ s hs
      by_cases hc : containsOutput outs e.getOutputNode = true
      · have hrest : ∃ e' ∈ rest, containsOutput outs e'.getOutputNode = false := by
          rcases hmiss with ⟨e', he', hf⟩
          rcases List.mem_cons.mp he' with he'' | he''
          · subst he''; rw [hc] at hf; cases hf
          · exact ⟨e', he'', hf⟩
        have ihr := ih (fun e' he' => hsrc e' (List.mem_cons_of_mem e he'))
          (fun dst ii src oi hmem vs hl =>
            hbound dst ii src oi (List.mem_cons_of_mem e hmem) vs hl) hrest
        cases e with
        | slotEdge dst ii src oi =>
            simp only [Edge.getOutputNode] at hs hsid hc
            obtain ⟨vs, hvs⟩ := lookup_of_containsOutput outs _ hc
            have hoi : oi < vs.length :=
              hbound dst ii src oi (List.mem_cons_self _ rest) vs hvs
            rw [gatherDeps]
            simp only [Edge.getOutputNode, hs]
            rw [hsid, hvs]
            simp [hoi, ihr]
        | nodeEdge dst src =>
            simp only [Edge.getOutputNode] at hs hsid hc
            rw [gatherDeps]
            simp only [Edge.getOutputNode, hs]
            rw [hsid]
            simp [hc, ihr]
      · have hc' : containsOutput outs e.getOutputNode = false := by
          cases h : containsOutput outs e.getOutputNode
          · rfl
          · exact absurd h hc
        cases e with
        | slotEdge dst ii src oi =>
            simp only [Edge.getOutputNode] at hs hsid hc'
            have hnone := lookup_none_of_not_contains outs _ hc'
            rw [gatherDeps]
            simp only [Edge.getOutputNode, hs]
            rw [hsid, hnone]
        | nodeEdge dst src =>
            simp only [Edge.getOutputNode] at hs hsid hc'
            rw [gatherDeps]
            simp only [Edge.getOutputNode, hs]
            rw [hsid]
            simp [hc']

/-- Each satisfied slot edge contributes exactly the value the source
recorded at its `output_index` to the gathered pairs, keyed by its
`input_index`. -/
theorem mem_slotPairs (outs : Outputs) (es : List Edge)
    (dst ii src oi : Nat) (hmem : Edge.slotEdge dst ii src oi ∈ es)
    (vs : List SlotValue) (hvs : lookupOutput outs src = some vs)
    (v : SlotValue) (hv : vs.get? oi = some v) : (ii, v) ∈ slotPairs outs es := by
  simp only [slotPairs, List.mem_filterMap]
  refine ⟨Edge.slotEdge dst ii src oi, hmem, ?_⟩
  dsimp only
  rw [hvs]
  simp only [Option.some_bind]
  rw [hv]
  rfl

/-- Number of gathered pairs = number of inbound slot edges, when all
dependencies are satisfied. -/
theorem slotPairs_length (outs : Outputs) (es : List Edge)
    (hres : ∀ e ∈ es, containsOutput outs e.getOutputNode = true)
    (hbound : ∀ dst ii src oi, Edge.slotEdge dst ii src oi ∈ es →
      ∀ vs, lookupOutput outs src = some vs → oi < vs.length) :
    (slotPairs outs es).length = (es.filter Edge.isSlotEdge).length := by
  induction es with
  | nil => rfl
  | cons e rest ih =>
      have ihr := ih (fun e' he' => hres e' (List.mem_cons_of_mem e he'))
        (fun dst ii src oi hmem vs hl =>
          hbound dst ii src oi (List.mem_cons_of_mem e hmem) vs hl)
      cases e with
      | slotEdge dst ii src oi =>
          have hc := hres _ (List.mem_cons_self _ rest)
          simp only [Edge.getOutputNode] at hc
          obtain ⟨vs, hvs⟩ := lookup_of_containsOutput outs _ hc
          have hoi : oi < vs.length :=
            hbound dst ii src oi (List.mem_cons_self _ rest) vs hvs
          simp only [slotPairs, List.filterMap_cons] at ihr ⊢
          rw [hvs]
          simp only [Option.some_bind]
          rw [List.get?_eq_get hoi]
          simp only [Option.map_some', List.length_cons, List.filter_cons]
          simp only [Edge.isSlotEdge, if_pos]
          simpa using ihr
      | nodeEdge dst src =>
          simp only [slotPairs, List.filterMap_cons] at ihr ⊢
          simp only [List.filter_cons, Edge.isSlotEdge]
          simpa using ihr

/-- Sorting by input-slot index: the sorted list is a permutation of the
gathered pairs. -/
theorem sortByIndex_perm (pairs : List (Nat × SlotValue)) :
    (sortByIndex pairs).Perm pairs :=
  List.perm_insertionSort _ _

instance instIsTotalPairLe : IsTotal (Nat × SlotValue) (fun a b => a.1 ≤ b.1) :=
  ⟨fun a b => Nat.le_total a.1 b.1⟩

instance instIsTransPairLe : IsTrans (Nat × SlotValue) (fun a b => a.1 ≤ b.1) :=
  ⟨fun _ _ _ h h' => Nat.le_trans h h'⟩

/-- Sorting by input-slot index: the result is sorted by input-slot index. -/
theorem sortByIndex_sorted (pairs : List (Nat × SlotValue)) :
    (sortByIndex pairs).Sorted (fun a b => a.1 ≤ b.1) :=
  List.sorted_insertionSort _ _

theorem sortByIndex_length (pairs : List (Nat × SlotValue)) :
    (sortByIndex pairs).length = pairs.length :=
  (sortByIndex_perm pairs).length_eq

/-! ## Output-finalization and input-validation lemmas -/

theorem applyWrites_foldl_length (ws : List (Nat × SlotValue))
    (acc : List (Option SlotValue)) :
    (ws.foldl (fun acc w => acc.set w.1 (some w.2)) acc).length = acc.length := by
  induction ws generalizing acc with
  | nil => rfl
  | cons w rest ih => simp [List.foldl_cons, ih, List.length_set]

theorem applyWrites_length (n : Nat) (ws : List (Nat × SlotValue)) :
    (applyWrites n ws).length = n := by
  simp [applyWrites, applyWrites_foldl_length]

theorem collectOutputs_ok_length (arr : List (Option SlotValue)) (k : Nat)
    (vs : List SlotValue) (h : collectOutputs arr k = .ok vs) :
    vs.length = arr.length := by
  induction arr generalizing k vs with
  | nil =>
      simp only [collectOutputs] at h
      cases h
      rfl
  | cons o rest ih =>
      cases o with
      | some v =>
          simp only [collectOutputs] at h
          cases hrec : collectOutputs rest (k + 1) with
          | error i => rw [hrec] at h; cases h
          | ok vs' =>
              rw [hrec] at h
              simp only [Except.map] at h
              cases h
              have := ih (k + 1) vs' hrec
              simp [this]
      | none => simp [collectOutputs] at h

theorem collectOutputs_error_first (arr : List (Option SlotValue)) (k i : Nat)
    (h : collectOutputs arr k = .error i) :
    k ≤ i ∧ i - k < arr.length ∧ arr.get? (i - k) = some none ∧
      ∀ j < i - k, ∃ v, arr.get? j = some (some v) := by
  induction arr generalizing k i with
  | nil => simp [collectOutputs] at h
  | cons o rest ih =>
      cases o with
      | some v =>
          simp only [collectOutputs] at h
          cases hrec : collectOutputs rest (k + 1) with
          | error i' =>
              rw [hrec] at h
              simp only [Except.map] at h
              cases h
              obtain ⟨hk, hlt, hget, hfirst⟩ := ih (k + 1) i hrec
              refine ⟨by omega, by simp; omega, ?_, ?_⟩
              · rw [show i - k = (i - (k + 1)) + 1 by omega]
                simpa using hget
              · intro j hj
                cases j with
                | zero => exact ⟨v, rfl⟩
                | succ j' =>
                    have : j' < i - (k + 1) := by omega
                    simpa using hfirst j' this
          | ok vs' => rw [hrec] at h; simp [Except.map] at h
      | none =>
          simp only [collectOutputs] at h
          cases h
          exact ⟨Nat.le_refl _, by simp, by simp, by intro j hj; omega⟩

theorem collectOutputs_ok_of_all_some (arr : List (Option SlotValue)) (k : Nat)
    (h : ∀ o ∈ arr, o.isSome) : ∃ vs, collectOutputs arr k = .ok vs := by
  induction arr generalizing k with
  | nil => exact ⟨[], rfl⟩
  | cons o rest ih =>
      cases o with
      | some v =>
          obtain ⟨vs, hvs⟩ := ih (k + 1) (fun o ho => h o (List.mem_cons_of_mem _ ho))
          exact ⟨v :: vs, by simp [collectOutputs, hvs, Except.map]⟩
      | none => exact absurd (h none (List.mem_cons_self _ _)) (by simp)

theorem collectOutputs_error_of_none (arr : List (Option SlotValue)) (k : Nat)
    (h : ∃ j, arr.get? j = some none) : ∃ i, collectOutputs arr k = .error i := by
  induction arr generalizing k with
  | nil => obtain ⟨j, hj⟩ := h; simp at hj
  | cons o rest ih =>
      cases o with
      | some v =>
          have hrest : ∃ j, rest.get? j = some none := by
            obtain ⟨j, hj⟩ := h
            cases j with
            | zero => simp at hj
            | succ j' => exact ⟨j', by simpa using hj⟩
          obtain ⟨i, hi⟩ := ih (k + 1) hrest
          exact ⟨i, by simp [collectOutputs, hi, Except.map]⟩
      | none => exact ⟨k, rfl⟩

/-- A successful validation returns exactly one value per declared slot. -/
theorem validateInputs_ok_length (slots : List SlotInfo)
    (inputs : List SlotValue) (gname : Option String) (k : Nat)
    (vs : List SlotValue) (h : validateInputs slots inputs gname k = .ok vs) :
    vs.length = slots.length := by
  induction slots generalizing k vs with
  | nil => simp only [validateInputs] at h; cases h; rfl
  | cons slot rest ih =>
      simp only [validateInputs] at h
      cases hin : inputs.get? k with
      | none => rw [hin] at h; cases h
      | some v =>
          rw [hin] at h
          dsimp only at h
          by_cases ht : slot.slotType ≠ v.slotType
          · rw [if_pos ht] at h; cases h
          · rw [if_neg ht] at h
            cases hrec : validateInputs rest inputs gname (k + 1) with
            | error e => rw [hrec] at h; cases h
            | ok vs' =>
                rw [hrec] at h
                simp only [Except.map] at h
                cases h
                simp [ih (k + 1) vs' hrec]

/-- Validation walks slots positionally; the first failing index wins.  A
type mismatch at index `k + i` (all earlier indices matching) yields
`MismatchedInputSlotType` there. -/
theorem validateInputs_mismatch (slots : List SlotInfo)
    (inputs : List SlotValue) (gname : Option String) (k i : Nat)
    (s : SlotInfo) (v : SlotValue)
    (hi : slots.get? i = some s) (hv : inputs.get? (k + i) = some v)
    (hne : s.slotType ≠ v.slotType)
    (hfirst : ∀ j < i, ∃ s' v', slots.get? j = some s' ∧
      inputs.get? (k + j) = some v' ∧ s'.slotType = v'.slotType) :
    validateInputs slots inputs gname k =
      .error (.mismatchedInputSlotType (k + i) (.name s.name)
        s.slotType v.slotType) := by
  induction slots generalizing k i with
  | nil => simp at hi
  | cons slot rest ih =>
      cases i with
      | zero =>
          have hs : slot = s := by simpa using hi
          subst hs
          rw [validateInputs]
          rw [show inputs.get? k = some v from by simpa using hv]
          dsimp only
          rw [if_pos hne, Nat.add_zero]
      | succ j =>
          obtain ⟨s0, v0, hs0, hv0, heq0⟩ := hfirst 0 (Nat.succ_pos j)
          have hs0' : slot = s0 := by simpa using hs0
          subst hs0'
          rw [validateInputs]
          rw [show inputs.get? k = some v0 from by simpa using hv0]
          dsimp only
          rw [if_neg (by simp [heq0])]
          have ihr := ih (k + 1) j (by simpa using hi)
            (by rw [show k + 1 + j = k + (j + 1) by omega]; exact hv)
            (fun j' hj' => by
              obtain ⟨s', v', h1, h2, h3⟩ := hfirst (j' + 1) (by omega)
              exact ⟨s', v', by simpa using h1,
                by rw [show k + 1 + j' = k + (j' + 1) by omega]; exact h2, h3⟩)
          rw [ihr]
          simp only [Except.map]
          rw [show k + 1 + j = k + (j + 1) by omega]

/-- Validation walks slots positionally; if the value at index `k + i` is
absent (all earlier indices matching), the whole run fails with
`MissingInput` there. -/
theorem validateInputs_missing (slots : List SlotInfo)
    (inputs : List SlotValue) (gname : Option String) (k i : Nat)
    (s : SlotInfo)
    (hi : slots.get? i = some s) (hv : inputs.get? (k + i) = none)
    (hfirst : ∀ j < i, ∃ s' v', slots.get? j = some s' ∧
      inputs.get? (k + j) = some v' ∧ s'.slotType = v'.slotType) :
    validateInputs slots inputs gname k =
      .error (.missingInput (k + i) s.name gname) := by
  induction slots generalizing k i with
  | nil => simp at hi
  | cons slot rest ih =>
      cases i with
      | zero =>
          have hs : slot = s := by simpa using hi
          subst hs
          rw [validateInputs]
          rw [show inputs.get? k = none from by simpa using hv]
          simp
      | succ j =>
          obtain ⟨s0, v0, hs0, hv0, heq0⟩ := hfirst 0 (Nat.succ_pos j)
          have hs0' : slot = s0 := by simpa using hs0
          subst hs0'
          rw [validateInputs]
          rw [show inputs.get? k = some v0 from by simpa using hv0]
          dsimp only
          rw [if_neg (by simp [heq0])]
          have ihr := ih (k + 1) j (by simpa using hi)
            (by rw [show k + 1 + j = k + (j + 1) by omega]; exact hv)
            (fun j' hj' => by
              obtain ⟨s', v', h1, h2, h3⟩ := hfirst (j' + 1) (by omega)
              exact ⟨s', v', by simpa using h1,
                by rw [show k + 1 + j' = k + (j' + 1) by omega]; exact h2, h3⟩)
          rw [ihr]
          simp only [Except.map]
          rw [show k + 1 + j = k + (j + 1) by omega]

/-- When every declared slot is matched by a supplied value of the right
type, validation succeeds with exactly the first `slots.length` supplied
values — any surplus supplied values are never inspected. -/
theorem validateInputs_ok (slots : List SlotInfo) (inputs : List SlotValue)
    (gname : Option String) (k : Nat)
    (hall : ∀ j s, slots.get? j = some s →
      ∃ v, inputs.get? (k + j) = some v ∧ s.slotType = v.slotType) :
    ∃ vs, validateInputs slots inputs gname k = .ok vs ∧
      vs.length = slots.length ∧
      ∀ j, j < slots.length → vs.get? j = inputs.get? (k + j) := by
  induction slots generalizing k with
  | nil => exact ⟨[], rfl, rfl, by intro j hj; simp at hj⟩
  | cons slot rest ih =>
      obtain ⟨v, hv, heq⟩ := hall 0 slot rfl
      obtain ⟨vs', hvs', hlen', hget'⟩ := ih (k + 1) (fun j s hs => by
        obtain ⟨v', h1, h2⟩ := hall (j + 1) s (by simpa using hs)
        exact ⟨v', by rw [show k + 1 + j = k + (j + 1) by omega]; exact h1, h2⟩)
      refine ⟨v :: vs', ?_, by simp [hlen'], ?_⟩
      · rw [validateInputs]
        rw [show inputs.get? k = some v from by simpa using hv]
        dsimp only
        rw [if_neg (by simp [heq])]
        rw [hvs']
        rfl
      · intro j hj
        cases j with
        | zero => simpa using hv.symm
        | succ j' =>
            have := hget' j' (by simpa using hj)
            rw [show k + 1 + j' = k + (j' + 1) by omega] at this
            simpa using this

/-- Seeding with a declared input node: external inputs validated, recorded
as the input node's output, and its successors pushed at the deque front
(the end of the back-to-front list), after the reversed zero-input seeds. -/
theorem run_graph_input_seed (fuel : Nat) (g : Graph) (gname : Option String)
    (inputs : List SlotValue) (log : List NodeId) (inode : NodeState)
    (vs : List SlotValue) (succs : List NodeState)
    (hin : g.inputNode = some inode)
    (hval : validateInputs inode.input_slots inputs gname 0 = .ok vs)
    (hsucc : g.successorStates inode.id = some succs) :
    run_graph (fuel + 1) g gname inputs log =
      runLoop fuel g
        ((g.nodes.filter (fun n => n.input_slots.isEmpty)).reverse ++ succs)
        (insertOutput [] inode.id vs) log := by
  rw [run_graph, hin]
  simp only [hval, hsucc]

/-- Seeding without an input node: the queue is exactly the reversed
zero-input-slot seeds. -/
theorem run_graph_no_input (fuel : Nat) (g : Graph) (gname : Option String)
    (inputs : List SlotValue) (log : List NodeId)
    (hin : g.input_node_id = none) :
    run_graph (fuel + 1) g gname inputs log =
      runLoop fuel g ((g.nodes.filter (fun n => n.input_slots.isEmpty)).reverse)
        [] log := by
  rw [run_graph]
  simp [Graph.inputNode, hin]

/-- A failed validation aborts the run before the loop starts, with the log
unchanged: no node of the graph has been invoked. -/
theorem run_graph_input_err (fuel : Nat) (g : Graph) (gname : Option String)
    (inputs : List SlotValue) (log : List NodeId) (inode : NodeState)
    (e : RunnerError) (hin : g.inputNode = some inode)
    (hval : validateInputs inode.input_slots inputs gname 0 = .error e) :
    run_graph (fuel + 1) g gname inputs log = .err e log := by
  rw [run_graph, hin]
  simp only [hval]

/-- If the dependency check succeeded, every inbound edge's source was
resolved at that moment — a node is never invoked before all of its
dependencies are recorded. -/
theorem gatherDeps_ready_sources (g : Graph) (outs : Outputs) (es : List Edge)
    (pairs : List (Nat × SlotValue)) (h : gatherDeps g outs es = .ready pairs) :
    ∀ e ∈ es, containsOutput outs e.getOutputNode = true := by
  induction es generalizing pairs with
  | nil => intro e he; cases he
  | cons e rest ih =>
      intro e' he'
      rw [gatherDeps] at h
      cases hs : g.getNodeState e.getOutputNode with
      | none => rw [hs] at h; cases h
      | some s =>
          rw [hs] at h
          have hsid := getNodeState_some_id g _ s hs
          dsimp only at h
          cases e with
          | slotEdge dst ii src oi =>
              simp only [Edge.getOutputNode] at hsid
              cases hl : lookupOutput outs s.id with
              | none => rw [hl] at h; cases h
              | some vss =>
                  rw [hl] at h
                  dsimp only at h
                  by_cases hb : oi < vss.length
                  · rw [dif_pos hb] at h
                    cases hrec : gatherDeps g outs rest with
                    | ready p =>
                        rcases List.mem_cons.mp he' with he'' | he''
                        · subst he''
                          simp only [Edge.getOutputNode]
                          rw [← hsid]
                          exact containsOutput_of_lookup outs _ _ hl
                        · exact ih p hrec e' he''
                    | missing => rw [hrec] at h; cases h
                    | crash m => rw [hrec] at h; cases h
                  · rw [dif_neg hb] at h; cases h
          | nodeEdge dst src =>
              simp only [Edge.getOutputNode] at hsid
              by_cases hc : containsOutput outs s.id = true
              · rw [if_pos hc] at h
                rcases List.mem_cons.mp he' with he'' | he''
                · subst he''
                  simp only [Edge.getOutputNode]
                  rw [← hsid]
                  exact hc
                · exact ih pairs h e' he''
              · rw [if_neg hc] at h; cases h

/-! ## Concrete example graphs -/

/-- Chain source: no inputs, one output slot, writes `buffer 5`. -/
def exP : NodeState :=
  { id := 0, type_name := "P", input_slots := [],
    output_slots := [⟨"o", .buffer⟩],
    run := fun _ => .ok [(0, .buffer 5)] [] }

/-- Chain middle: one input slot, one output slot, copies its input. -/
def exQ : NodeState :=
  { id := 1, type_name := "Q", input_slots := [⟨"i", .buffer⟩],
    output_slots := [⟨"o", .buffer⟩],
    run := fun ins => .ok [(0, ins.headD (.buffer 999))] [] }

/-- Chain sink: observes its input; fails unless it is `buffer 5`. -/
def exR : NodeState :=
  { id := 2, type_name := "R", input_slots := [⟨"i", .buffer⟩],
    output_slots := [],
    run := fun ins => if ins = [SlotValue.buffer 5] then .ok [] [] else .err ⟨"wrong value"⟩ }

/-- Scenario A: linear chain P → Q → R by slot edges carrying one value. -/
def exChain : Graph :=
  .mk [exP, exQ, exR] [.slotEdge 1 0 0 0, .slotEdge 2 0 1 0] none []

/-- Source node `A` for the requeue example. -/
def exA : NodeState :=
  { id := 0, type_name := "A", input_slots := [],
    output_slots := [⟨"o", .buffer⟩],
    run := fun _ => .ok [(0, .buffer 1)] [] }

/-- Sink node `B` depending on `A` via a slot edge. -/
def exB : NodeState :=
  { id := 1, type_name := "B", input_slots := [⟨"i", .buffer⟩],
    output_slots := [],
    run := fun _ => .ok [] [] }

/-- Two nodes A → B with one slot edge; used to exercise the requeue path
when B is popped before A has resolved. -/
def exRequeue : Graph := .mk [exA, exB] [.slotEdge 1 0 0 0] none []

/-- A node declaring two input slots. -/
def exM : NodeState :=
  { id := 1, type_name := "M", input_slots := [⟨"x", .buffer⟩, ⟨"y", .buffer⟩],
    output_slots := [],
    run := fun _ => .ok [] [] }

/-- A(0) → M(1) where M declares 2 input slots but only one is fed: the
graph was built inconsistently, tripping the `assert_eq!`. -/
def exMismatch : Graph := .mk [exA, exM] [.slotEdge 1 0 0 0] none []

/-- A node declaring one output slot but never writing it. -/
def exBadNode : NodeState :=
  { id := 0, type_name := "Bad", input_slots := [],
    output_slots := [⟨"o", .buffer⟩],
    run := fun _ => .ok [] [] }

/-- Scenario B: a single node that forgets its declared output. -/
def exBad : Graph := .mk [exBadNode] [] none []

/-! ## C2 -/

/-- C2: a node's `run` is never invoked until every inbound edge dependency
is satisfied.  First conjunct: if some inbound source is unresolved (and
the dependency scan cannot panic first), the popped node is requeued at the
deque's front and the iteration is abandoned — the loop simply continues,
producing no error and no invocation.  Second conjunct: whenever the
dependency check succeeds (the only path to an invocation), every inbound
edge's source — slot edges and node edges alike — had its output recorded
in `node_outputs`. -/
theorem claim_C2 :
    (∀ (fuel : Nat) (g : Graph) (node : NodeState) (rest : List NodeState)
        (outs : Outputs) (log : List NodeId),
      containsOutput outs node.id = false →
      (∀ e ∈ g.inboundEdges node.id, ∃ s, g.getNodeState e.getOutputNode = some s) →
      (∀ dst ii src oi, Edge.slotEdge dst ii src oi ∈ g.inboundEdges node.id →
        ∀ vs, lookupOutput outs src = some vs → oi < vs.length) →
      (∃ e ∈ g.inboundEdges node.id, containsOutput outs e.getOutputNode = false) →
      runLoop (fuel + 1) g (node :: rest) outs log =
        runLoop fuel g (rest ++ [node]) outs log) ∧
    (∀ (g : Graph) (outs : Outputs) (id : NodeId) (pairs : List (Nat × SlotValue)),
      gatherDeps g outs (g.inboundEdges id) = .ready pairs →
      ∀ e ∈ g.inboundEdges id, containsOutput outs e.getOutputNode = true) := by
  constructor
  · intro fuel g node rest outs log hskip hsrc hbound hmiss
    exact runLoop_requeue fuel g node rest outs log hskip
      (gatherDeps_missing g outs _ hsrc hbound hmiss)
  · intro g outs id pairs h
    exact gatherDeps_ready_sources g outs _ pairs h

/-- Witness for C2 on the two-node graph A → B: popping B with A unresolved
requeues B without error; and in the diamond-completing state where A is
resolved, a successful dependency check certifies A's output was recorded. -/
theorem claim_C2_witness :
    (runLoop 3 exRequeue [exB] [] [] = runLoop 2 exRequeue [exB] [] []) ∧
    containsOutput [(0, [SlotValue.buffer 1])] 0 = true := by
  constructor
  · have h := claim_C2.1 2 exRequeue exB [] [] []
      (by decide)
      (by
        intro e he
        rw [show exRequeue.inboundEdges exB.id = [Edge.slotEdge 1 0 0 0] from rfl] at he
        rw [List.mem_singleton.mp he]
        exact ⟨exA, rfl⟩)
      (by
        intro dst ii src oi hmem vs hl
        rw [show exRequeue.inboundEdges exB.id = [Edge.slotEdge 1 0 0 0] from rfl] at hmem
        cases List.mem_singleton.mp hmem
        simp [lookupOutput] at hl)
      ⟨Edge.slotEdge 1 0 0 0, by decide, by decide⟩
    simpa using h
  · exact claim_C2.2 exRequeue [(0, [SlotValue.buffer 1])] 1 [(0, SlotValue.buffer 1)]
      rfl (Edge.slotEdge 1 0 0 0) (by decide)

/-! ## C3 -/

/-- C3: slot-value routing is exact.  (1) With all dependencies satisfied
and indices in range, the dependency check gathers exactly `slotPairs` —
one `(input_index, value)` pair per inbound slot edge, the value being the
one the source recorded at `output_index`.  (2) Each satisfied slot edge
`(src_out, dst_in)` contributes precisely the recorded value — no coercion
or substitution.  (3) The gathered pairs are stably sorted by input-slot
index before invocation: the sorted list is a permutation of the gathered
pairs, ordered by index.  (4) If the resulting input count differs from the
node's declared input-slot count, the iteration panics at the
`assert_eq!` — a fatal invariant violation. -/
theorem claim_C3 :
    (∀ (g : Graph) (outs : Outputs) (id : NodeId),
      (∀ e ∈ g.inboundEdges id, ∃ s, g.getNodeState e.getOutputNode = some s) →
      (∀ e ∈ g.inboundEdges id, containsOutput outs e.getOutputNode = true) →
      (∀ dst ii src oi, Edge.slotEdge dst ii src oi ∈ g.inboundEdges id →
        ∀ vs, lookupOutput outs src = some vs → oi < vs.length) →
      gatherDeps g outs (g.inboundEdges id) =
        .ready (slotPairs outs (g.inboundEdges id))) ∧
    (∀ (outs : Outputs) (es : List Edge) (dst ii src oi : Nat)
        (vs : List SlotValue) (v : SlotValue),
      Edge.slotEdge dst ii src oi ∈ es → lookupOutput outs src = some vs →
      vs.get? oi = some v → (ii, v) ∈ slotPairs outs es) ∧
    (∀ pairs : List (Nat × SlotValue),
      (sortByIndex pairs).Perm pairs ∧
      (sortByIndex pairs).Sorted (fun a b => a.1 ≤ b.1)) ∧
    (∀ (fuel : Nat) (g : Graph) (node : NodeState) (rest : List NodeState)
        (outs : Outputs) (log : List NodeId) (pairs : List (Nat × SlotValue)),
      containsOutput outs node.id = false →
      gatherDeps g outs (g.inboundEdges node.id) = .ready pairs →
      ((sortByIndex pairs).map Prod.snd).length ≠ node.input_slots.length →
      runLoop (fuel + 1) g (node :: rest) outs log =
        .crash "assertion failed: inputs.len() == node_state.input_slots.len()" log) := by
  refine ⟨?_, ?_, ?_, ?_⟩
  · intro g outs id hsrc hres hbound
    exact gatherDeps_ready g outs _ hsrc hres hbound
  · intro outs es dst ii src oi vs v hmem hvs hv
    exact mem_slotPairs outs es dst ii src oi hmem vs hvs v hv
  · intro pairs
    exact ⟨sortByIndex_perm pairs, sortByIndex_sorted pairs⟩
  · intro fuel g node rest outs log pairs hskip hdep hlen
    exact runLoop_assertCrash fuel g node rest outs log pairs hskip hdep hlen

/-- Witness for C3 on the chain P → Q → R and the inconsistent graph
A → M: (1) with P resolved to `[buffer 5]`, Q's dependency check gathers
exactly `[(0, buffer 5)]`; (2) the pair `(0, buffer 5)` is among the
gathered pairs; (3) M (2 declared inputs, 1 fed) trips the assertion; and
the end-to-end chain run succeeds with R observing `buffer 5` (R fails on
any other value). -/
theorem claim_C3_witness :
    (gatherDeps exChain [(0, [SlotValue.buffer 5])] (exChain.inboundEdges 1) =
      .ready (slotPairs [(0, [SlotValue.buffer 5])] (exChain.inboundEdges 1))) ∧
    ((0, SlotValue.buffer 5) ∈
      slotPairs [(0, [SlotValue.buffer 5])] (exChain.inboundEdges 1)) ∧
    (runLoop 2 exMismatch [exM] [(0, [SlotValue.buffer 1])] [] =
      .crash "assertion failed: inputs.len() == node_state.input_slots.len()" []) ∧
    (run_graph 20 exChain none [] [] = .ok [0, 1, 2]) := by
  refine ⟨?_, ?_, ?_, rfl⟩
  · exact claim_C3.1 exChain [(0, [SlotValue.buffer 5])] 1
      (by
        intro e he
        rw [show exChain.inboundEdges 1 = [Edge.slotEdge 1 0 0 0] from rfl] at he
        rw [List.mem_singleton.mp he]
        exact ⟨exP, rfl⟩)
      (by
        intro e he
        rw [show exChain.inboundEdges 1 = [Edge.slotEdge 1 0 0 0] from rfl] at he
        rw [List.mem_singleton.mp he]
        decide)
      (by
        intro dst ii src oi hmem vs hl
        rw [show exChain.inboundEdges 1 = [Edge.slotEdge 1 0 0 0] from rfl] at hmem
        cases List.mem_singleton.mp hmem
        rw [show lookupOutput [(0, [SlotValue.buffer 5])] 0
            = some [SlotValue.buffer 5] from rfl] at hl
        cases hl
        decide)
  · exact claim_C3.2.1 [(0, [SlotValue.buffer 5])] (exChain.inboundEdges 1)
      1 0 0 0 [SlotValue.buffer 5] (SlotValue.buffer 5) (by decide) rfl rfl
  · exact claim_C3.2.2.2 1 exMismatch exM [] [(0, [SlotValue.buffer 1])] []
      [(0, SlotValue.buffer 1)] (by decide) rfl (by decide)

/-! ## C4 -/

/-- C4: output finalization.  First conjunct: after a successful invocation
(and successful drain of its sub-graph requests), if any declared output
slot is still unset, the run fails with `EmptyNodeOutputSlot` carrying the
node's `type_name`, the index of the first unset slot, and that slot's
declared name.  Second conjunct: if every declared output slot is set, the
completed output vector (one value per declared slot) is recorded under the
node's id and the loop continues with the node's successors enqueued. -/
theorem claim_C4 :
    (∀ (fuel : Nat) (g : Graph) (node : NodeState) (rest : List NodeState)
        (outs : Outputs) (log : List NodeId) (pairs writes : List (Nat × SlotValue))
        (subRuns : List RunSubGraph) (log'' : List NodeId),
      containsOutput outs node.id = false →
      gatherDeps g outs (g.inboundEdges node.id) = .ready pairs →
      ((sortByIndex pairs).map Prod.snd).length = node.input_slots.length →
      node.run ((sortByIndex pairs).map Prod.snd) = .ok writes subRuns →
      drainSubGraphs fuel g subRuns (log ++ [node.id]) = .ok log'' →
      (∃ j, (applyWrites node.output_slots.length writes).get? j = some none) →
      ∃ i slot,
        (applyWrites node.output_slots.length writes).get? i = some none ∧
        (∀ j < i, ∃ v,
          (applyWrites node.output_slots.length writes).get? j = some (some v)) ∧
        node.output_slots.get? i = some slot ∧
        runLoop (fuel + 1) g (node :: rest) outs log =
          .err (.emptyNodeOutputSlot node.type_name i slot.name) log'') ∧
    (∀ (fuel : Nat) (g : Graph) (node : NodeState) (rest : List NodeState)
        (outs : Outputs) (log : List NodeId) (pairs writes : List (Nat × SlotValue))
        (subRuns : List RunSubGraph) (log'' : List NodeId) (succs : List NodeState),
      containsOutput outs node.id = false →
      gatherDeps g outs (g.inboundEdges node.id) = .ready pairs →
      ((sortByIndex pairs).map Prod.snd).length = node.input_slots.length →
      node.run ((sortByIndex pairs).map Prod.snd) = .ok writes subRuns →
      drainSubGraphs fuel g subRuns (log ++ [node.id]) = .ok log'' →
      (∀ o ∈ applyWrites node.output_slots.length writes, o.isSome) →
      g.successorStates node.id = some succs →
      ∃ values,
        collectOutputs (applyWrites node.output_slots.length writes) 0 = .ok values ∧
        values.length = node.output_slots.length ∧
        runLoop (fuel + 1) g (node :: rest) outs log =
          runLoop fuel g (rest ++ succs) (insertOutput outs node.id values) log'') := by
  constructor
  · intro fuel g node rest outs log pairs writes subRuns log''
      hskip hdep hlen hrun hdrain hunset
    obtain ⟨i, hi⟩ := collectOutputs_error_of_none _ 0 hunset
    obtain ⟨-, hlt, hget, hfirst⟩ := collectOutputs_error_first _ 0 i hi
    simp only [Nat.sub_zero] at hlt hget hfirst
    have hlt' : i < node.output_slots.length := by
      rw [← applyWrites_length node.output_slots.length writes]
      exact hlt
    have hslot : node.output_slots.get? i =
        some (node.output_slots.get ⟨i, hlt'⟩) := List.get?_eq_get hlt'
    refine ⟨i, node.output_slots.get ⟨i, hlt'⟩, hget, hfirst, hslot, ?_⟩
    rw [runLoop_invoke fuel g node rest outs log pairs writes subRuns
      hskip hdep hlen hrun]
    rw [hdrain]
    simp only [hi, hslot]
  · intro fuel g node rest outs log pairs writes subRuns log'' succs
      hskip hdep hlen hrun hdrain hall hsucc
    obtain ⟨values, hvals⟩ := collectOutputs_ok_of_all_some _ 0 hall
    have hvlen : values.length = node.output_slots.length := by
      rw [collectOutputs_ok_length _ 0 values hvals, applyWrites_length]
    refine ⟨values, hvals, hvlen, ?_⟩
    rw [runLoop_invoke fuel g node rest outs log pairs writes subRuns
      hskip hdep hlen hrun]
    rw [hdrain]
    simp only [hvals, hsucc]

/-- Witness for C4: the node `Bad` declares one output slot and writes
nothing; the first conjunct of the claim identifies slot 0 named `o` and
the loop fails with `EmptyNodeOutputSlot`; the end-to-end run agrees. -/
theorem claim_C4_witness :
    (∃ i slot,
      (applyWrites exBadNode.output_slots.length []).get? i = some none ∧
      (∀ j < i, ∃ v,
        (applyWrites exBadNode.output_slots.length []).get? j = some (some v)) ∧
      exBadNode.output_slots.get? i = some slot ∧
      runLoop 2 exBad [exBadNode] [] [] =
        .err (.emptyNodeOutputSlot exBadNode.type_name i slot.name) [0]) ∧
    (run_graph 10 exBad none [] [] = .err (.emptyNodeOutputSlot "Bad" 0 "o") [0]) := by
  constructor
  · exact claim_C4.1 1 exBad exBadNode [] [] [] [] [] [] [0]
      (by decide) rfl (by decide) rfl rfl ⟨0, rfl⟩
  · rfl

/-! ## C5 (corrected) -/

/-- Input node declaring two buffer slots `a`, `b` and nothing else. -/
def exInputNode2 : NodeState :=
  { id := 0, type_name := "I", input_slots := [⟨"a", .buffer⟩, ⟨"b", .buffer⟩],
    output_slots := [], run := fun _ => .ok [] [] }

/-- A graph whose only node is the two-slot input node. -/
def exC5 : Graph := .mk [exInputNode2] [] (some 0) []

/-- Counterexample to C5 as stated: two slots are declared and only one
value is supplied — fewer values than slots — yet because that one value
has the wrong type tag, `run_graph` returns `MismatchedInputSlotType` at
index 0, not `MissingInput`: validation walks slots in order and the first
failing index wins, whichever failure kind it is. -/
theorem claim_C5_counterexample :
    ([SlotValue.entity 7].length < exInputNode2.input_slots.length) ∧
    (run_graph 10 exC5 none [.entity 7] [] =
      .err (.mismatchedInputSlotType 0 (.name "a") .buffer .entity) []) ∧
    ¬ ∃ i nm gn l, run_graph 10 exC5 none [.entity 7] [] =
      .err (.missingInput i nm gn) l := by
  refine ⟨by decide, rfl, ?_⟩
  rintro ⟨i, nm, gn, l, h⟩
  rw [show run_graph 10 exC5 none [.entity 7] [] =
    .err (.mismatchedInputSlotType 0 (.name "a") .buffer .entity) [] from rfl] at h
  simp at h

/-- C5 as amended: validation walks the declared slots positionally and the
first failing index wins.  (1) If index `i` has a supplied value of the
wrong type tag and all earlier indices match, the run fails with
`MismatchedInputSlotType` carrying the slot index, label (the slot's name),
expected and actual types.  (2) If index `i` has no supplied value and all
earlier indices match, the run fails with `MissingInput` carrying the slot
index, slot name and graph name; in particular when all supplied values
match, that index is the number of supplied values.  (3) Either way the
error is returned before the main loop starts: the log is unchanged, so no
node of the graph is invoked. -/
theorem claim_C5 :
    (∀ (slots : List SlotInfo) (inputs : List SlotValue) (gname : Option String)
        (i : Nat) (s : SlotInfo) (v : SlotValue),
      slots.get? i = some s → inputs.get? i = some v → s.slotType ≠ v.slotType →
      (∀ j < i, ∃ s' v', slots.get? j = some s' ∧ inputs.get? j = some v' ∧
        s'.slotType = v'.slotType) →
      validateInputs slots inputs gname 0 =
        .error (.mismatchedInputSlotType i (.name s.name) s.slotType v.slotType)) ∧
    (∀ (slots : List SlotInfo) (inputs : List SlotValue) (gname : Option String)
        (i : Nat) (s : SlotInfo),
      slots.get? i = some s → inputs.get? i = none →
      (∀ j < i, ∃ s' v', slots.get? j = some s' ∧ inputs.get? j = some v' ∧
        s'.slotType = v'.slotType) →
      validateInputs slots inputs gname 0 =
        .error (.missingInput i s.name gname)) ∧
    (∀ (fuel : Nat) (g : Graph) (gname : Option String) (inputs : List SlotValue)
        (log : List NodeId) (inode : NodeState) (e : RunnerError),
      g.inputNode = some inode →
      validateInputs inode.input_slots inputs gname 0 = .error e →
      run_graph (fuel + 1) g gname inputs log = .err e log) := by
  refine ⟨?_, ?_, ?_⟩
  · intro slots inputs gname i s v hi hv hne hfirst
    have := validateInputs_mismatch slots inputs gname 0 i s v hi
      (by simpa using hv) hne
      (fun j hj => by simpa using hfirst j hj)
    simpa using this
  · intro slots inputs gname i s hi hv hfirst
    have := validateInputs_missing slots inputs gname 0 i s hi
      (by simpa using hv) (fun j hj => by simpa using hfirst j hj)
    simpa using this
  · exact run_graph_input_err

/-- Witness for the amended C5: on the two-slot graph, supplying a
wrong-typed first value yields `MismatchedInputSlotType` at index 0 (even
though values are also missing); supplying one well-typed value yields
`MissingInput` at index 1; and the failing `run_graph` leaves the log
empty — no node was invoked. -/
theorem claim_C5_witness :
    (validateInputs exInputNode2.input_slots [.entity 7] none 0 =
      .error (.mismatchedInputSlotType 0 (.name "a") .buffer .entity)) ∧
    (validateInputs exInputNode2.input_slots [.buffer 9] none 0 =
      .error (.missingInput 1 "b" none)) ∧
    (run_graph 10 exC5 none [.buffer 9] [] =
      .err (.missingInput 1 "b" none) []) := by
  refine ⟨?_, ?_, ?_⟩
  · exact claim_C5.1 exInputNode2.input_slots [.entity 7] none 0
      ⟨"a", .buffer⟩ (.entity 7) rfl rfl (by decide)
      (fun j hj => absurd hj (by omega))
  · exact claim_C5.2.1 exInputNode2.input_slots [.buffer 9] none 1
      ⟨"b", .buffer⟩ rfl rfl
      (fun j hj => by
        have : j = 0 := by omega
        subst this
        exact ⟨⟨"a", .buffer⟩, .buffer 9, rfl, rfl, rfl⟩)
  · exact claim_C5.2.2 9 exC5 none [.buffer 9] [] exInputNode2
      (.missingInput 1 "b" none) rfl
      (claim_C5.2.1 exInputNode2.input_slots [.buffer 9] none 1
        ⟨"b", .buffer⟩ rfl rfl
        (fun j hj => by
          have : j = 0 := by omega
          subst this
          exact ⟨⟨"a", .buffer⟩, .buffer 9, rfl, rfl, rfl⟩))

/-! ## C6 -/

/-- A node whose invocation always fails. -/
def exFailNode : NodeState :=
  { id := 0, type_name := "F", input_slots := [], output_slots := [],
    run := fun _ => .err ⟨"boom"⟩ }

/-- A second node ordered after the failing one. -/
def exAfterNode : NodeState :=
  { id := 1, type_name := "G", input_slots := [], output_slots := [],
    run := fun _ => .ok [] [] }

/-- F(0) fails; G(1) is ordered after F by a node edge. -/
def exFail : Graph := .mk [exFailNode, exAfterNode] [.nodeEdge 1 0] none []

/-- C6: a failing node invocation is wrapped as `NodeRunError` and
propagated immediately.  First conjunct: the loop returns at once with
`NodeRunError e`; the final log is exactly the log up to and including the
failing node — no further node of this graph (or, since the error
propagates out of every enclosing `drainSubGraphs`/`run_graph` frame, of
any ancestor graph) is invoked, and there is no retry.  Second conjunct:
when `run_graph` fails, the top-level `run` returns the error and submits
no command buffer to the queue — no partial frame is submitted. -/
theorem claim_C6 :
    (∀ (fuel : Nat) (g : Graph) (node : NodeState) (rest : List NodeState)
        (outs : Outputs) (log : List NodeId) (pairs : List (Nat × SlotValue))
        (e : NodeRunError),
      containsOutput outs node.id = false →
      gatherDeps g outs (g.inboundEdges node.id) = .ready pairs →
      ((sortByIndex pairs).map Prod.snd).length = node.input_slots.length →
      node.run ((sortByIndex pairs).map Prod.snd) = .err e →
      runLoop (fuel + 1) g (node :: rest) outs log =
        .err (.nodeRunError e) (log ++ [node.id])) ∧
    (∀ (fuel : Nat) (g : Graph) (e : RunnerError) (log' : List NodeId),
      run_graph fuel g none [] [] = .err e log' →
      run fuel g = (.err e log', [])) := by
  constructor
  · exact runLoop_runErr
  · intro fuel g e log' h
    rw [run, h]

/-- Witness for C6: node F fails with `boom`; the step lemma yields the
wrapped error with log `[0]`, and the top-level `run` returns it and
submits nothing. -/
theorem claim_C6_witness :
    (runLoop 3 exFail [exFailNode] [] [] =
      .err (.nodeRunError ⟨"boom"⟩) [0]) ∧
    (run 10 exFail = (.err (.nodeRunError ⟨"boom"⟩) [0], [])) := by
  constructor
  · have h := claim_C6.1 2 exFail exFailNode [] [] [] [] ⟨"boom"⟩
      (by decide) rfl (by decide) rfl
    simpa using h
  · exact claim_C6.2 10 exFail (.nodeRunError ⟨"boom"⟩) [0] rfl

/-! ## C7 -/

/-- Input node of the example sub-graph `S`. -/
def exSubInput : NodeState :=
  { id := 10, type_name := "SI", input_slots := [⟨"si", .buffer⟩],
    output_slots := [⟨"si", .buffer⟩], run := fun _ => .ok [] [] }

/-- Worker node of the example sub-graph `S`. -/
def exSubWork : NodeState :=
  { id := 11, type_name := "SW", input_slots := [⟨"i", .buffer⟩],
    output_slots := [], run := fun _ => .ok [] [] }

/-- The example sub-graph `S`: its input node feeds one worker. -/
def exSubGraph : Graph :=
  .mk [exSubInput, exSubWork] [.slotEdge 11 0 10 0] (some 10) []

/-- Node `N`: requests sub-graph `S` with input `[buffer 42]`. -/
def exN : NodeState :=
  { id := 0, type_name := "N", input_slots := [], output_slots := [],
    run := fun _ => .ok [] [⟨"S", [.buffer 42]⟩] }

/-- Node ordered after `N` by a node edge. -/
def exAfterN : NodeState :=
  { id := 1, type_name := "M", input_slots := [], output_slots := [],
    run := fun _ => .ok [] [] }

/-- Scenario C: N requests sub-graph `S`; M is N's successor. -/
def exSub : Graph := .mk [exN, exAfterN] [.nodeEdge 1 0] none [("S", exSubGraph)]

/-- C7: sub-graph requests are buffered during the node's invocation (the
invocation only returns them) and drained by the runner afterwards.  First
conjunct: a successful invocation proceeds by draining the buffered
requests starting from the log extended with this invocation, and only a
successful drain reaches output finalization, the recording of the node's
outputs and the enqueueing of its successors — so all requested sub-graphs
execute before the node's outputs are finalized and its successors are
enqueued.  Second and third conjuncts: the drain handles requests in
request order, resolving each named sub-graph (panicking if it is absent)
and recursively invoking the same `run_graph` algorithm with the request's
input vector, propagating any failure immediately. -/
theorem claim_C7 :
    (∀ (fuel : Nat) (g : Graph) (node : NodeState) (rest : List NodeState)
        (outs : Outputs) (log : List NodeId) (pairs writes : List (Nat × SlotValue))
        (subRuns : List RunSubGraph),
      containsOutput outs node.id = false →
      gatherDeps g outs (g.inboundEdges node.id) = .ready pairs →
      ((sortByIndex pairs).map Prod.snd).length = node.input_slots.length →
      node.run ((sortByIndex pairs).map Prod.snd) = .ok writes subRuns →
      runLoop (fuel + 1) g (node :: rest) outs log =
        (match drainSubGraphs fuel g subRuns (log ++ [node.id]) with
         | .ok log'' =>
             match collectOutputs (applyWrites node.output_slots.length writes) 0 with
             | .error i =>
                 match node.output_slots.get? i with
                 | none => .crash "get_slot unwrap" log''
                 | some slot =>
                     .err (.emptyNodeOutputSlot node.type_name i slot.name) log''
             | .ok values =>
                 match g.successorStates node.id with
                 | none => .crash "node exists" log''
                 | some succs =>
                     runLoop fuel g (rest ++ succs)
                       (insertOutput outs node.id values) log''
         | r => r)) ∧
    (∀ (fuel : Nat) (g : Graph) (r : RunSubGraph) (rest : List RunSubGraph)
        (log : List NodeId),
      drainSubGraphs (fuel + 1) g (r :: rest) log =
        (match g.getSubGraph r.name with
         | none => .crash "sub graph exists because it was validated when queued." log
         | some sub =>
             match run_graph fuel sub (some r.name) r.inputs log with
             | .ok log' => drainSubGraphs fuel g rest log'
             | other => other)) ∧
    (∀ (fuel : Nat) (g : Graph) (log : List NodeId),
      drainSubGraphs fuel g [] log = .ok log) := by
  refine ⟨runLoop_invoke, fun fuel g r rest log => rfl, fun fuel g log => ?_⟩
  cases fuel <;> rfl

/-- Witness for C7 on Scenario C: N's invocation (log `[0]`) proceeds by
draining its single request for `S`; the end-to-end run shows the
sub-graph's worker (id 11) executing after N and before N's successor M
(id 1), i.e. the run's log is `[0, 11, 1]`. -/
theorem claim_C7_witness :
    (runLoop 9 exSub [exN, exN] [] [] =
      (match drainSubGraphs 8 exSub [⟨"S", [.buffer 42]⟩] [exN.id] with
       | .ok log'' =>
           match collectOutputs (applyWrites exN.output_slots.length []) 0 with
           | .error i =>
               match exN.output_slots.get? i with
               | none => .crash "get_slot unwrap" log''
               | some slot =>
                   .err (.emptyNodeOutputSlot exN.type_name i slot.name) log''
           | .ok values =>
               match exSub.successorStates exN.id with
               | none => .crash "node exists" log''
               | some succs =>
                   runLoop 8 exSub ([exN] ++ succs)
                     (insertOutput [] exN.id values) log''
       | r => r)) ∧
    (run_graph 30 exSub none [] [] = .ok [0, 11, 1]) := by
  constructor
  · have h := claim_C7.1 8 exSub exN [exN] [] [] [] [] [⟨"S", [.buffer 42]⟩]
      (by decide) rfl (by decide) rfl
    simpa using h
  · rfl

/-! ## C8 (corrected) -/

/-- Input node with one external slot, mirrored as its output. -/
def exC8Input : NodeState :=
  { id := 0, type_name := "I", input_slots := [⟨"e", .buffer⟩],
    output_slots := [⟨"e", .buffer⟩], run := fun _ => .ok [] [] }

/-- Successor of the input node (fed by a slot edge). -/
def exC8S : NodeState :=
  { id := 1, type_name := "S", input_slots := [⟨"i", .buffer⟩],
    output_slots := [], run := fun _ => .ok [] [] }

/-- A zero-input-slot seed node. -/
def exC8Z : NodeState :=
  { id := 2, type_name := "Z", input_slots := [], output_slots := [],
    run := fun _ => .ok [] [] }

/-- Graph with an input node whose successor is S, plus the independent
zero-input seed Z. -/
def exC8 : Graph := .mk [exC8Input, exC8Z, exC8S] [.slotEdge 1 0 0 0] (some 0) []

/-- Counterexample to C8 as stated: in `exC8` the input node's successor S
(id 1) is pushed at the deque's *front*, but nodes are dequeued from the
*back*, so the zero-input-slot seed Z (id 2) runs first and S runs last —
the invocation log is `[2, 1]`, not the `[1, 2]` the claimed LIFO
discipline ("most recently enqueued runs next") would produce. -/
theorem claim_C8_counterexample :
    (run_graph 20 exC8 none [.buffer 0] [] = .ok [2, 1]) ∧
    run_graph 20 exC8 none [.buffer 0] [] ≠ .ok [1, 2] := by
  exact ⟨rfl, by decide⟩

/-- All-resolved queue segments are skipped in order; a lemma for the FIFO
discipline: an element at the deque's front (the end of the back-to-front
list) is dequeued only after everything nearer the back. -/
theorem runLoop_skips_resolved (g : Graph) (outs : Outputs) (q : List NodeState)
    (hq : ∀ m ∈ q, containsOutput outs m.id = true) :
    ∀ (fuel : Nat) (tail : List NodeState) (log : List NodeId),
      runLoop (fuel + q.length) g (q ++ tail) outs log =
        runLoop fuel g tail outs log := by
  induction q with
  | nil => intro fuel tail log; rfl
  | cons m q' ih =>
      intro fuel tail log
      rw [show fuel + (m :: q').length = (fuel + q'.length) + 1 by
        simp [List.length_cons]; omega]
      rw [show (m :: q') ++ tail = m :: (q' ++ tail) from rfl]
      rw [runLoop_skip _ g m (q' ++ tail) outs log
        (hq m (List.mem_cons_self m q'))]
      exact ih (fun x hx => hq x (List.mem_cons_of_mem m hx)) fuel tail log

/-- C8 as amended: during seeding, the input node's successors are pushed
onto the *front* of the `VecDeque` after the zero-input-slot nodes were
collected at its back, but the work queue is drained from the *back*
(`pop_back`), so with `push_front` for every enqueue the discipline is
FIFO, not LIFO: the most recently enqueued node is dequeued *last*, the
zero-input-slot seeds run (in reverse collection order) *before* the input
node's successors, and dependency chains execute breadth-first.  First
conjunct: the seeding equation — the initial back-to-front queue is the
reversed seed list with the input node's successors appended (= pushed at
the front).  Second conjunct: a node at the deque's front is dequeued only
after every (here: already-resolved) node nearer the back has been
popped. -/
theorem claim_C8 :
    (∀ (fuel : Nat) (g : Graph) (gname : Option String) (inputs : List SlotValue)
        (log : List NodeId) (inode : NodeState) (vs : List SlotValue)
        (succs : List NodeState),
      g.inputNode = some inode →
      validateInputs inode.input_slots inputs gname 0 = .ok vs →
      g.successorStates inode.id = some succs →
      run_graph (fuel + 1) g gname inputs log =
        runLoop fuel g
          ((g.nodes.filter (fun n => n.input_slots.isEmpty)).reverse ++ succs)
          (insertOutput [] inode.id vs) log) ∧
    (∀ (g : Graph) (outs : Outputs) (q : List NodeState),
      (∀ m ∈ q, containsOutput outs m.id = true) →
      ∀ (fuel : Nat) (tail : List NodeState) (log : List NodeId),
        runLoop (fuel + q.length) g (q ++ tail) outs log =
          runLoop fuel g tail outs log) :=
  ⟨run_graph_input_seed, runLoop_skips_resolved⟩

/-- Witness for the amended C8 on `exC8`: seeding puts the seed Z before
the input successor S in pop order (queue `[Z, S]` back-to-front), and with
Z resolved the queue segment `[Z]` is skipped before S is reached. -/
theorem claim_C8_witness :
    (run_graph 20 exC8 none [.buffer 0] [] =
      runLoop 19 exC8 [exC8Z, exC8S]
        (insertOutput [] exC8Input.id [.buffer 0]) []) ∧
    (runLoop 6 exC8 [exC8Z, exC8S] [(2, []), (0, [SlotValue.buffer 0])] [] =
      runLoop 5 exC8 [exC8S] [(2, []), (0, [SlotValue.buffer 0])] []) := by
  constructor
  · exact claim_C8.1 19 exC8 none [.buffer 0] [] exC8Input [.buffer 0]
      [exC8S] rfl rfl rfl
  · have h := claim_C8.2 exC8 [(2, []), (0, [SlotValue.buffer 0])] [exC8Z]
      (by intro m hm; rw [List.mem_singleton.mp hm]; decide)
      5 [exC8S] []
    simpa using h

/-! ## C9 -/

/-- Input node with a single external buffer slot. -/
def exC9Input : NodeState :=
  { id := 0, type_name := "I", input_slots := [⟨"a", .buffer⟩],
    output_slots := [⟨"a", .buffer⟩], run := fun _ => .ok [] [] }

/-- A graph consisting only of the one-slot input node. -/
def exC9 : Graph := .mk [exC9Input] [] (some 0) []

/-- C9: surplus external inputs are silently ignored.  First conjunct:
validation inspects only the declared slots positionally; when each
declared slot is matched, it succeeds with exactly one value per declared
slot (`vs.length = slots.length`), each taken from the corresponding
supplied position — values beyond the declared count are never read and
raise no error.  Second conjunct: the run then proceeds into the main loop,
recording under the input node's id exactly the validated vector. -/
theorem claim_C9 :
    (∀ (slots : List SlotInfo) (inputs : List SlotValue) (gname : Option String)
        (k : Nat),
      (∀ j s, slots.get? j = some s →
        ∃ v, inputs.get? (k + j) = some v ∧ s.slotType = v.slotType) →
      ∃ vs, validateInputs slots inputs gname k = .ok vs ∧
        vs.length = slots.length ∧
        ∀ j, j < slots.length → vs.get? j = inputs.get? (k + j)) ∧
    (∀ (fuel : Nat) (g : Graph) (gname : Option String) (inputs : List SlotValue)
        (log : List NodeId) (inode : NodeState) (vs : List SlotValue)
        (succs : List NodeState),
      g.inputNode = some inode →
      validateInputs inode.input_slots inputs gname 0 = .ok vs →
      g.successorStates inode.id = some succs →
      vs.length = inode.input_slots.length ∧
      run_graph (fuel + 1) g gname inputs log =
        runLoop fuel g
          ((g.nodes.filter (fun n => n.input_slots.isEmpty)).reverse ++ succs)
          (insertOutput [] inode.id vs) log ∧
      lookupOutput (insertOutput [] inode.id vs) inode.id = some vs) := by
  constructor
  · exact validateInputs_ok
  · intro fuel g gname inputs log inode vs succs hin hval hsucc
    exact ⟨validateInputs_ok_length _ _ _ _ _ hval,
      run_graph_input_seed fuel g gname inputs log inode vs succs hin hval hsucc,
      lookupOutput_insert_self [] inode.id vs⟩

/-- Witness for C9: the one-slot graph is given three inputs; validation
succeeds with exactly the first value, the run completes without error, and
the recorded input-node vector is `[buffer 1]` (length 1, the declared
count). -/
theorem claim_C9_witness :
    (∃ vs, validateInputs exC9Input.input_slots
        [SlotValue.buffer 1, SlotValue.buffer 2, SlotValue.buffer 3] none 0 =
          .ok vs ∧
      vs.length = exC9Input.input_slots.length ∧
      ∀ j, j < exC9Input.input_slots.length →
        vs.get? j = [SlotValue.buffer 1, SlotValue.buffer 2,
          SlotValue.buffer 3].get? (0 + j)) ∧
    (lookupOutput (insertOutput [] exC9Input.id [SlotValue.buffer 1])
        exC9Input.id = some [SlotValue.buffer 1]) ∧
    (run_graph 10 exC9 none [.buffer 1, .buffer 2, .buffer 3] [] = .ok []) := by
  refine ⟨?_, ?_, rfl⟩
  · exact claim_C9.1 exC9Input.input_slots
      [SlotValue.buffer 1, SlotValue.buffer 2, SlotValue.buffer 3] none 0
      (fun j s hs => by
        cases j with
        | zero =>
            refine ⟨SlotValue.buffer 1, rfl, ?_⟩
            cases Option.some_inj.mp hs
            rfl
        | succ j' => simp [List.get?] at hs)
  · exact (claim_C9.2 9 exC9 none [.buffer 1, .buffer 2, .buffer 3] []
      exC9Input [SlotValue.buffer 1] [] rfl rfl rfl).2.2

/-! ## C10 (corrected) -/

/-- The precondition of C10 as stated, decidably: every slot edge's
`output_index` is within the *declared output-slot count* of its source
node. -/
def slotEdgeOutBoundsB (g : Graph) : Bool :=
  g.edges.all (fun e =>
    match e with
    | .slotEdge _ _ src oi =>
        g.nodes.all (fun n => n.id != src || decide (oi < n.output_slots.length))
    | .nodeEdge _ _ => true)

/-- Input node declaring one input slot but two output slots. -/
def exC10Input : NodeState :=
  { id := 0, type_name := "I", input_slots := [⟨"a", .buffer⟩],
    output_slots := [⟨"o0", .buffer⟩, ⟨"o1", .buffer⟩],
    run := fun _ => .ok [] [] }

/-- Consumer wired to the input node's declared output index 1. -/
def exC10B : NodeState :=
  { id := 1, type_name := "B", input_slots := [⟨"i", .buffer⟩],
    output_slots := [], run := fun _ => .ok [] [] }

/-- The input node's recorded vector is its validated *input* vector
(length 1), yet the edge reads declared output index 1 (&lt; 2). -/
def exC10 : Graph := .mk [exC10Input, exC10B] [.slotEdge 1 0 0 1] (some 0) []

/-- Counterexample to C10's second half as stated: in `exC10` every slot
edge's `output_index` (1) is within its source's declared output-slot count
(2), yet the run still panics at `outputs[*output_index]`, because the
recorded vector of the *input node* has the length of its declared
input-slot list (1), not of its output-slot list. -/
theorem claim_C10_counterexample :
    (slotEdgeOutBoundsB exC10 = true) ∧
    (run_graph 20 exC10 none [.buffer 5] [] = .crash "index out of bounds" []) := by
  exact ⟨by decide, rfl⟩

/-- C10 as amended: (1) when an inbound slot edge's `output_index` is not
less than the length of the source's *recorded* output vector, the
dependency check panics at the unchecked indexing (`crash`, not a
structured error), and (2) the loop propagates that panic.  (3) Under the
precondition that every slot edge's `output_index` is within the length of
the source's recorded vector (and every source id resolves to a node), the
check cannot panic: it either defers the node or gathers its inputs.  The
recorded lengths are pinned by (4): a non-input node records exactly its
declared output-slot count, and (5): the input node records exactly its
declared *input*-slot count — which is why the declared-output-count
precondition of the original claim must additionally cover the input
node. -/
theorem claim_C10 :
    (∀ (g : Graph) (outs : Outputs) (dst ii src oi : Nat) (rest : List Edge)
        (s : NodeState) (vs : List SlotValue),
      g.getNodeState src = some s → lookupOutput outs src = some vs →
      vs.length ≤ oi →
      gatherDeps g outs (Edge.slotEdge dst ii src oi :: rest) =
        .crash "index out of bounds") ∧
    (∀ (fuel : Nat) (g : Graph) (node : NodeState) (rest : List NodeState)
        (outs : Outputs) (log : List NodeId) (m : String),
      containsOutput outs node.id = false →
      gatherDeps g outs (g.inboundEdges node.id) = .crash m →
      runLoop (fuel + 1) g (node :: rest) outs log = .crash m log) ∧
    (∀ (g : Graph) (outs : Outputs) (es : List Edge),
      (∀ e ∈ es, ∃ s, g.getNodeState e.getOutputNode = some s) →
      (∀ dst ii src oi, Edge.slotEdge dst ii src oi ∈ es →
        ∀ vs, lookupOutput outs src = some vs → oi < vs.length) →
      gatherDeps g outs es = .missing ∨
        ∃ pairs, gatherDeps g outs es = .ready pairs) ∧
    (∀ (n : Nat) (ws : List (Nat × SlotValue)) (vs : List SlotValue),
      collectOutputs (applyWrites n ws) 0 = .ok vs → vs.length = n) ∧
    (∀ (slots : List SlotInfo) (inputs : List SlotValue) (gname : Option String)
        (vs : List SlotValue),
      validateInputs slots inputs gname 0 = .ok vs → vs.length = slots.length) := by
  refine ⟨?_, ?_, ?_, ?_, ?_⟩
  · intro g outs dst ii src oi rest s vs hs hvs hge
    have hsid := getNodeState_some_id g _ s hs
    rw [gatherDeps]
    simp only [Edge.getOutputNode, hs]
    rw [hsid, hvs]
    simp [show ¬ (oi < vs.length) from by omega]
  · exact runLoop_depCrash
  · intro g outs es hsrc hbound
    by_cases hall : ∀ e ∈ es, containsOutput outs e.getOutputNode = true
    · exact Or.inr ⟨_, gatherDeps_ready g outs es hsrc hall hbound⟩
    · refine Or.inl (gatherDeps_missing g outs es hsrc hbound ?_)
      push_neg at hall
      obtain ⟨e, he, hne⟩ := hall
      exact ⟨e, he, by simpa using hne⟩
  · intro n ws vs h
    rw [collectOutputs_ok_length _ 0 vs h, applyWrites_length]
  · intro slots inputs gname vs h
    exact validateInputs_ok_length slots inputs gname 0 vs h

/-- Witness for the amended C10 on `exC10`: the recorded vector of the
input node is `[buffer 5]` (length 1 = declared input count, conjunct 5);
the edge reads index 1, which is out of that vector's bounds, so the check
panics (conjunct 1) and the loop crashes (conjunct 2); and on the
well-formed chain state the check cannot panic (conjunct 3). -/
theorem claim_C10_witness :
    (gatherDeps exC10 [(0, [SlotValue.buffer 5])]
      (Edge.slotEdge 1 0 0 1 :: []) = .crash "index out of bounds") ∧
    (runLoop 2 exC10 [exC10B] [(0, [SlotValue.buffer 5])] [] =
      .crash "index out of bounds" []) ∧
    (gatherDeps exChain [(0, [SlotValue.buffer 5])] (exChain.inboundEdges 1) =
        .missing ∨
      ∃ pairs, gatherDeps exChain [(0, [SlotValue.buffer 5])]
        (exChain.inboundEdges 1) = .ready pairs) ∧
    (∀ vs, validateInputs exC10Input.input_slots [SlotValue.buffer 5] none 0 =
      .ok vs → vs.length = 1) := by
  refine ⟨?_, ?_, ?_, ?_⟩
  · exact claim_C10.1 exC10 [(0, [SlotValue.buffer 5])] 1 0 0 1 []
      exC10Input [SlotValue.buffer 5] rfl rfl (by decide)
  · exact claim_C10.2.1 1 exC10 exC10B [] [(0, [SlotValue.buffer 5])] []
      "index out of bounds" (by decide)
      (claim_C10.1 exC10 [(0, [SlotValue.buffer 5])] 1 0 0 1 []
        exC10Input [SlotValue.buffer 5] rfl rfl (by decide))
  · exact claim_C10.2.2.1 exChain [(0, [SlotValue.buffer 5])]
      (exChain.inboundEdges 1)
      (by
        intro e he
        rw [show exChain.inboundEdges 1 = [Edge.slotEdge 1 0 0 0] from rfl] at he
        rw [List.mem_singleton.mp he]
        exact ⟨exP, rfl⟩)
      (by
        intro dst ii src oi hmem vs hl
        rw [show exChain.inboundEdges 1 = [Edge.slotEdge 1 0 0 0] from rfl] at hmem
        cases List.mem_singleton.mp hmem
        rw [show lookupOutput [(0, [SlotValue.buffer 5])] 0
            = some [SlotValue.buffer 5] from rfl] at hl
        cases hl
        decide)
  · intro vs h
    exact claim_C10.2.2.2.2 exC10Input.input_slots [SlotValue.buffer 5] none vs h

/-! ## Scheduler analysis: well-formedness, readiness, and the measure -/

/-- The length of the vector recorded for a node when it resolves: the
distinguished input node records its validated external-input vector (one
value per declared *input* slot); every other node records one value per
declared *output* slot. -/
def outCap (g : Graph) (n : NodeState) : Nat :=
  if g.input_node_id = some n.id then n.input_slots.length
  else n.output_slots.length

/-- A node is ready when every inbound edge's source (slot and node edges
alike) has its output recorded. -/
def readyB (g : Graph) (outs : Outputs) (n : NodeState) : Bool :=
  (g.inboundEdges n.id).all (fun e => containsOutput outs e.getOutputNode)

/-- A popped node makes progress if it is already resolved (skip) or ready
(invoke). -/
def resolvedOrReady (g : Graph) (outs : Outputs) (n : NodeState) : Bool :=
  containsOutput outs n.id || readyB g outs n

/-- Distance (from the deque's back, where `pop_back` takes) to the nearest
node that would make progress. -/
def readyIdx (g : Graph) (outs : Outputs) : List NodeState → Nat
  | [] => 0
  | n :: rest => if resolvedOrReady g outs n then 0 else readyIdx g outs rest + 1

/-- Number of graph nodes whose output is not yet recorded. -/
def unresolvedCount (g : Graph) (outs : Outputs) : Nat :=
  (g.nodes.filter (fun n => !containsOutput outs n.id)).length

/-- The loop measure: queue length plus a weighted count of unresolved
nodes.  It decreases on skip and on resolve, and is unchanged on requeue
(where `readyIdx` decreases instead). -/
def loopV (g : Graph) (queue : List NodeState) (outs : Outputs) : Nat :=
  queue.length + (g.edges.length + 1) * unresolvedCount g outs

/-- Build-time well-formedness of a graph (the graph builder's contract):
distinct node ids, edge endpoints that are nodes of the graph, every
non-input node's input slots fed by exactly as many inbound slot edges, and
every slot edge's `output_index` within the source's recorded capacity. -/
structure WellFormed (g : Graph) : Prop where
  nodup : (g.nodes.map (fun n => n.id)).Nodup
  edge_dst : ∀ e ∈ g.edges, ∃ n ∈ g.nodes, n.id = e.getInputNode
  edge_src : ∀ e ∈ g.edges, ∃ n ∈ g.nodes, n.id = e.getOutputNode
  fed : ∀ n ∈ g.nodes, g.input_node_id = some n.id ∨
    ((g.inboundEdges n.id).filter Edge.isSlotEdge).length = n.input_slots.length
  out_bounds : ∀ dst ii src oi, Edge.slotEdge dst ii src oi ∈ g.edges →
    ∀ n ∈ g.nodes, n.id = src → oi < outCap g n

/-- The edge set is acyclic: some rank function strictly increases along
every edge (for a finite graph this is equivalent to the absence of
directed cycles). -/
def Acyclic (g : Graph) : Prop :=
  ∃ rank : NodeId → Nat, ∀ e ∈ g.edges, rank e.getOutputNode < rank e.getInputNode

/-- Every node's invocation succeeds, writes all of its declared output
slots, and requests no sub-graphs (the per-pass scheduling claim concerns a
single graph). -/
def CleanRuns (g : Graph) : Prop :=
  ∀ n ∈ g.nodes, ∀ ins : List SlotValue, ∃ writes,
    n.run ins = .ok writes [] ∧
    ∃ vs, collectOutputs (applyWrites n.output_slots.length writes) 0 = .ok vs

/-- The loop invariant: queue members are graph nodes; every unresolved
ready node is in the queue; recorded vectors have the recording node's
capacity; and the input node (if any) is already resolved. -/
structure LoopInv (g : Graph) (queue : List NodeState) (outs : Outputs) : Prop where
  qmem : ∀ n ∈ queue, n ∈ g.nodes
  readyq : ∀ n ∈ g.nodes, containsOutput outs n.id = false →
    readyB g outs n = true → n ∈ queue
  outs_len : ∀ id vs, lookupOutput outs id = some vs →
    ∃ n ∈ g.nodes, n.id = id ∧ vs.length = outCap g n
  inres : ∀ i, g.input_node_id = some i → containsOutput outs i = true

/-! ### readyIdx lemmas -/

theorem readyIdx_le_length (g : Graph) (outs : Outputs) (q : List NodeState) :
    readyIdx g outs q ≤ q.length := by
  induction q with
  | nil => exact Nat.le_refl 0
  | cons n rest ih =>
      by_cases h : resolvedOrReady g outs n = true
      · simp [readyIdx, h]
      · simp only [readyIdx, if_neg h, List.length_cons]
        omega

theorem readyIdx_lt_of_mem (g : Graph) (outs : Outputs) (q : List NodeState)
    (h : ∃ n ∈ q, resolvedOrReady g outs n = true) :
    readyIdx g outs q < q.length := by
  induction q with
  | nil => obtain ⟨n, hn, -⟩ := h; cases hn
  | cons m rest ih =>
      by_cases hm : resolvedOrReady g outs m = true
      · simp [readyIdx, hm]
      · obtain ⟨n, hn, hp⟩ := h
        have hn' : n ∈ rest := by
          rcases List.mem_cons.mp hn with rfl | hr
          · exact absurd hp hm
          · exact hr
        simp only [readyIdx, if_neg hm, List.length_cons]
        have := ih ⟨n, hn', hp⟩
        omega

theorem readyIdx_cons_false (g : Graph) (outs : Outputs) (n : NodeState)
    (q : List NodeState) (h : resolvedOrReady g outs n = false) :
    readyIdx g outs (n :: q) = readyIdx g outs q + 1 := by
  simp [readyIdx, h]

theorem readyIdx_append_left (g : Graph) (outs : Outputs)
    (q q' : List NodeState) (h : ∃ n ∈ q, resolvedOrReady g outs n = true) :
    readyIdx g outs (q ++ q') = readyIdx g outs q := by
  induction q with
  | nil => obtain ⟨n, hn, -⟩ := h; cases hn
  | cons m rest ih =>
      by_cases hm : resolvedOrReady g outs m = true
      · simp [readyIdx, hm]
      · obtain ⟨n, hn, hp⟩ := h
        have hn' : n ∈ rest := by
          rcases List.mem_cons.mp hn with rfl | hr
          · exact absurd hp hm
          · exact hr
        simp only [List.cons_append, readyIdx, if_neg hm]
        rw [show rest.append q' = rest ++ q' from rfl, ih ⟨n, hn', hp⟩]

/-! ### Option-mapM lemmas for `successorStates` -/

theorem mapM_option_some_of_forall {α β : Type} (f : α → Option β) :
    ∀ (l : List α), (∀ a ∈ l, ∃ b, f a = some b) →
      ∃ l', l.mapM f = some l' ∧ l'.length = l.length := by
  intro l
  induction l with
  | nil => intro _; exact ⟨[], rfl, rfl⟩
  | cons a rest ih =>
      intro h
      obtain ⟨b, hb⟩ := h a (List.mem_cons_self a rest)
      obtain ⟨l', hl', hlen⟩ := ih (fun x hx => h x (List.mem_cons_of_mem a hx))
      refine ⟨b :: l', ?_, by simp [hlen]⟩
      rw [List.mapM_cons, hb, hl']
      rfl

theorem mapM_option_mem {α β : Type} (f : α → Option β) :
    ∀ (l : List α) (l' : List β), l.mapM f = some l' →
      ∀ b ∈ l', ∃ a ∈ l, f a = some b := by
  intro l
  induction l with
  | nil =>
      intro l' h b hb
      simp only [List.mapM_nil] at h
      cases h
      cases hb
  | cons a rest ih =>
      intro l' h b hb
      rw [List.mapM_cons] at h
      cases hfa : f a with
      | none => rw [hfa] at h; cases h
      | some b0 =>
          rw [hfa] at h
          cases hrec : rest.mapM f with
          | none => rw [hrec] at h; cases h
          | some l0 =>
              rw [hrec] at h
              simp only [Option.bind_some, Option.pure_def] at h
              cases h
              rcases List.mem_cons.mp hb with rfl | hb'
              · exact ⟨a, List.mem_cons_self a rest, hfa⟩
              · obtain ⟨x, hx, hfx⟩ := ih l0 hrec b hb'
                exact ⟨x, List.mem_cons_of_mem a hx, hfx⟩

theorem mapM_option_forward {α β : Type} (f : α → Option β) :
    ∀ (l : List α) (l' : List β), l.mapM f = some l' →
      ∀ a ∈ l, ∀ b, f a = some b → b ∈ l' := by
  intro l
  induction l with
  | nil => intro l' h a ha; cases ha
  | cons a0 rest ih =>
      intro l' h a ha b hb
      rw [List.mapM_cons] at h
      cases hfa : f a0 with
      | none => rw [hfa] at h; cases h
      | some b0 =>
          rw [hfa] at h
          cases hrec : rest.mapM f with
          | none => rw [hrec] at h; cases h
          | some l0 =>
              rw [hrec] at h
              simp only [Option.bind_some, Option.pure_def] at h
              cases h
              rcases List.mem_cons.mp ha with rfl | ha'
              · rw [hb] at hfa
                cases hfa
                exact List.mem_cons_self b l0
              · exact List.mem_cons_of_mem b0 (ih l0 hrec a ha' b hb)

/-! ### The rank-descent lemma -/

/-- If any node is unresolved, some *ready* unresolved node is in the
queue: descend along unresolved dependencies (ranks strictly decrease on an
acyclic edge set) until a node with all sources resolved is reached; the
invariant places it in the queue. -/
theorem exists_ready_unresolved (g : Graph) (hwf : WellFormed g)
    (rank : NodeId → Nat)
    (hrank : ∀ e ∈ g.edges, rank e.getOutputNode < rank e.getInputNode)
    (queue : List NodeState) (outs : Outputs)
    (hInv : LoopInv g queue outs) :
    ∀ (r : Nat) (u : NodeState), u ∈ g.nodes → rank u.id ≤ r →
      containsOutput outs u.id = false →
      ∃ w ∈ queue, containsOutput outs w.id = false ∧ readyB g outs w = true := by
  intro r
  induction r with
  | zero =>
      intro u hu hr hun
      by_cases hready : readyB g outs u = true
      · exact ⟨u, hInv.readyq u hu hun hready, hun, hready⟩
      · exfalso
        have hx : ∃ e ∈ g.inboundEdges u.id,
            containsOutput outs e.getOutputNode = false := by
          have : ¬ ∀ e ∈ g.inboundEdges u.id,
              containsOutput outs e.getOutputNode = true := by
            intro hall
            exact hready (by simpa [readyB, List.all_eq_true] using hall)
          push_neg at this
          obtain ⟨e, he, hne⟩ := this
          exact ⟨e, he, by simpa using hne⟩
        obtain ⟨e, he, -⟩ := hx
        have hedge : e ∈ g.edges := (List.mem_filter.mp he).1
        have hdst : e.getInputNode = u.id := by
          have := (List.mem_filter.mp he).2
          simpa using this
        have := hrank e hedge
        rw [hdst] at this
        omega
  | succ r ih =>
      intro u hu hr hun
      by_cases hready : readyB g outs u = true
      · exact ⟨u, hInv.readyq u hu hun hready, hun, hready⟩
      · have hx : ∃ e ∈ g.inboundEdges u.id,
            containsOutput outs e.getOutputNode = false := by
          have : ¬ ∀ e ∈ g.inboundEdges u.id,
              containsOutput outs e.getOutputNode = true := by
            intro hall
            exact hready (by simpa [readyB, List.all_eq_true] using hall)
          push_neg at this
          obtain ⟨e, he, hne⟩ := this
          exact ⟨e, he, by simpa using hne⟩
        obtain ⟨e, he, hmissing⟩ := hx
        have hedge : e ∈ g.edges := (List.mem_filter.mp he).1
        have hdst : e.getInputNode = u.id := by
          have := (List.mem_filter.mp he).2
          simpa using this
        obtain ⟨s, hs, hsid⟩ := hwf.edge_src e hedge
        have hsun : containsOutput outs s.id = false := by rw [hsid]; exact hmissing
        have hslt : rank s.id ≤ r := by
          have := hrank e hedge
          rw [hdst, ← hsid] at this
          omega
        exact ih s hs hslt hsun

/-! ### Support lemmas for the main loop theorem -/

theorem inbound_src_exists (g : Graph) (hwf : WellFormed g) (id : NodeId) :
    ∀ e ∈ g.inboundEdges id, ∃ s, g.getNodeState e.getOutputNode = some s := by
  intro e he
  obtain ⟨n, hn, hid⟩ := hwf.edge_src e (List.mem_filter.mp he).1
  exact ⟨n, hid ▸ getNodeState_of_mem g hwf.nodup n hn⟩

theorem inbound_bound (g : Graph) (hwf : WellFormed g) (outs : Outputs)
    (hol : ∀ id vs, lookupOutput outs id = some vs →
      ∃ n ∈ g.nodes, n.id = id ∧ vs.length = outCap g n) (id : NodeId) :
    ∀ dst ii src oi, Edge.slotEdge dst ii src oi ∈ g.inboundEdges id →
      ∀ vs, lookupOutput outs src = some vs → oi < vs.length := by
  intro dst ii src oi hmem vs hvs
  obtain ⟨m, hm, hmid, hlen⟩ := hol src vs hvs
  rw [hlen]
  exact hwf.out_bounds dst ii src oi (List.mem_filter.mp hmem).1 m hm hmid

/-- `iter_node_outputs` succeeds under well-formedness; its result has one
entry per outbound edge, all entries are graph nodes, and it contains every
node reachable by an outbound edge. -/
theorem successorStates_spec (g : Graph) (hwf : WellFormed g) (id : NodeId) :
    ∃ succs, g.successorStates id = some succs ∧
      succs.length = (g.outboundEdges id).length ∧
      (∀ x ∈ succs, x ∈ g.nodes) ∧
      (∀ n ∈ g.nodes, (∃ e ∈ g.edges, e.getOutputNode = id ∧
        e.getInputNode = n.id) → n ∈ succs) := by
  have hall : ∀ e ∈ g.outboundEdges id,
      ∃ b, g.getNodeState e.getInputNode = some b := by
    intro e he
    obtain ⟨n, hn, hid⟩ := hwf.edge_dst e (List.mem_filter.mp he).1
    exact ⟨n, hid ▸ getNodeState_of_mem g hwf.nodup n hn⟩
  obtain ⟨succs, hsuccs, hlen⟩ :=
    mapM_option_some_of_forall (fun e => g.getNodeState e.getInputNode)
      (g.outboundEdges id) hall
  refine ⟨succs, hsuccs, hlen, ?_, ?_⟩
  · intro x hx
    obtain ⟨e, -, hfe⟩ :=
      mapM_option_mem (fun e => g.getNodeState e.getInputNode)
        (g.outboundEdges id) succs hsuccs x hx
    exact getNodeState_mem g _ x hfe
  · intro n hn ⟨e, he, hsrc, hdst⟩
    have hout : e ∈ g.outboundEdges id := by
      simp [Graph.outboundEdges, List.mem_filter, he, hsrc]
    have hfe : g.getNodeState e.getInputNode = some n := by
      rw [hdst]
      exact getNodeState_of_mem g hwf.nodup n hn
    exact mapM_option_forward (fun e => g.getNodeState e.getInputNode)
      (g.outboundEdges id) succs hsuccs e hout n hfe

theorem filter_unresolved_insert (outs : Outputs) (node : NodeState)
    (vs : List SlotValue) :
    ∀ (l : List NodeState), (l.map (fun n => n.id)).Nodup → node ∈ l →
      containsOutput outs node.id = false →
      (l.filter (fun n =>
          !containsOutput (insertOutput outs node.id vs) n.id)).length + 1 =
        (l.filter (fun n => !containsOutput outs n.id)).length := by
  intro l
  induction l with
  | nil => intro _ hmem; cases hmem
  | cons h t ih =>
      intro hnd hmem hun
      simp only [List.map, List.nodup_cons] at hnd
      by_cases hid : h.id = node.id
      · have hto : ∀ m ∈ t, m.id ≠ node.id := by
          intro m hm he
          exact hnd.1 ((hid.trans he.symm) ▸ List.mem_map_of_mem (fun n => n.id) hm)
        have hfe : t.filter (fun n =>
            !containsOutput (insertOutput outs node.id vs) n.id) =
            t.filter (fun n => !containsOutput outs n.id) := by
          apply List.filter_congr
          intro m hm
          rw [containsOutput_insert]
          rw [show (m.id == node.id) = false from
            beq_eq_false_iff_ne.mpr (hto m hm)]
          simp
        have hnew : containsOutput (insertOutput outs node.id vs) h.id = true := by
          rw [containsOutput_insert, hid]
          simp
        have hold : containsOutput outs h.id = false := by rw [hid]; exact hun
        simp only [List.filter_cons, hnew, hold]
        simp [hfe]
      · have hmem' : node ∈ t := by
          rcases List.mem_cons.mp hmem with rfl | hm
          · exact absurd rfl hid
          · exact hm
        have hsame : containsOutput (insertOutput outs node.id vs) h.id =
            containsOutput outs h.id := by
          rw [containsOutput_insert]
          rw [show (h.id == node.id) = false from beq_eq_false_iff_ne.mpr hid]
          simp
        have ihr := ih hnd.2 hmem' hun
        by_cases hc : containsOutput outs h.id = true
        · simp only [List.filter_cons, hsame, hc]
          simpa using ihr
        · have hc' : containsOutput outs h.id = false :=
            by cases hx : containsOutput outs h.id
               · rfl
               · exact absurd hx hc
          simp only [List.filter_cons, hsame, hc']
          simp only [Bool.not_false, if_pos]
          simp only [List.length_cons]
          omega

theorem unresolvedCount_insert (g : Graph) (outs : Outputs) (node : NodeState)
    (vs : List SlotValue) (hnd : (g.nodes.map (fun n => n.id)).Nodup)
    (hmem : node ∈ g.nodes) (hun : containsOutput outs node.id = false) :
    unresolvedCount g (insertOutput outs node.id vs) + 1 =
      unresolvedCount g outs :=
  filter_unresolved_insert outs node vs g.nodes hnd hmem hun

theorem count_append_one (log : List NodeId) (x y : NodeId) :
    (log ++ [x]).count y = log.count y + (if x = y then 1 else 0) := by
  rw [List.count_append]
  simp [List.count_cons, List.count_nil, beq_iff_eq]

theorem drainSubGraphs_nil (fuel : Nat) (g : Graph) (log : List NodeId) :
    drainSubGraphs fuel g [] log = .ok log := by
  cases fuel <;> rfl

/-- The main loop theorem: under build-time well-formedness, acyclicity,
and clean node implementations, the loop invariant guarantees the loop
drains with an `ok` result within `loopV * K + readyIdx` steps, invoking
each still-unresolved graph node exactly once (and resolved ones never
again). -/
theorem runLoop_complete (g : Graph) (hwf : WellFormed g)
    (rank : NodeId → Nat)
    (hrank : ∀ e ∈ g.edges, rank e.getOutputNode < rank e.getInputNode)
    (hclean : CleanRuns g) (K : Nat) :
    ∀ (fuel : Nat) (queue : List NodeState) (outs : Outputs) (log : List NodeId),
      LoopInv g queue outs →
      loopV g queue outs < K →
      loopV g queue outs * K + readyIdx g outs queue < fuel →
      ∃ log', runLoop fuel g queue outs log = .ok log' ∧
        ∀ n ∈ g.nodes, log'.count n.id =
          log.count n.id + (if containsOutput outs n.id then 0 else 1) := by
  intro fuel
  induction fuel with
  | zero =>
      intro queue outs log _ _ hfuel
      exact absurd hfuel (Nat.not_lt_zero _)
  | succ fuel ih =>
      intro queue outs log hInv hVK hfuel
      cases queue with
      | nil =>
          refine ⟨log, runLoop_nil fuel g outs log, ?_⟩
          intro n hn
          have hres : containsOutput outs n.id = true := by
            by_contra hc
            have hc' : containsOutput outs n.id = false :=
              Bool.eq_false_iff.mpr hc
            obtain ⟨w, hw, -⟩ := exists_ready_unresolved g hwf rank hrank [] outs
              hInv (rank n.id) n hn (Nat.le_refl _) hc'
            cases hw
          simp [hres]
      | cons node rest =>
          have hnodem : node ∈ g.nodes := hInv.qmem node (List.mem_cons_self _ _)
          by_cases hresT : containsOutput outs node.id = true
          · -- skip a node whose output is already recorded
            rw [runLoop_skip fuel g node rest outs log hresT]
            have hInv' : LoopInv g rest outs :=
              { qmem := fun n hn => hInv.qmem n (List.mem_cons_of_mem _ hn)
                readyq := fun n hn hun hr => by
                  have hq := hInv.readyq n hn hun hr
                  rcases List.mem_cons.mp hq with rfl | h
                  · rw [hresT] at hun; cases hun
                  · exact h
                outs_len := hInv.outs_len
                inres := hInv.inres }
            have hV1 : loopV g rest outs + 1 = loopV g (node :: rest) outs := by
              simp only [loopV, List.length_cons]
              omega
            have hmul : (loopV g rest outs + 1) * K = loopV g rest outs * K + K := by
              ring
            have hmulle : (loopV g rest outs + 1) * K ≤
                loopV g (node :: rest) outs * K :=
              Nat.mul_le_mul_right K (by omega)
            have hrl : rest.length ≤ loopV g rest outs := by
              simp only [loopV]
              exact Nat.le_add_right _ _
            have hidx := readyIdx_le_length g outs rest
            obtain ⟨log', hloop, hcount⟩ := ih rest outs log hInv' (by omega)
              (by omega)
            exact ⟨log', hloop, hcount⟩
          · have hres' : containsOutput outs node.id = false :=
              Bool.eq_false_iff.mpr hresT
            have hsrc := inbound_src_exists g hwf node.id
            have hbnd := inbound_bound g hwf outs hInv.outs_len node.id
            by_cases hready : readyB g outs node = true
            · -- resolve: invoke the node
              have hresall : ∀ e ∈ g.inboundEdges node.id,
                  containsOutput outs e.getOutputNode = true := by
                simpa [readyB, List.all_eq_true] using hready
              have hgather := gatherDeps_ready g outs (g.inboundEdges node.id)
                hsrc hresall hbnd
              have hnotinput : ¬ g.input_node_id = some node.id := by
                intro h
                rw [hInv.inres node.id h] at hres'
                cases hres'
              have hfed : ((g.inboundEdges node.id).filter Edge.isSlotEdge).length =
                  node.input_slots.length :=
                (hwf.fed node hnodem).resolve_left hnotinput
              have hplen : (slotPairs outs (g.inboundEdges node.id)).length =
                  node.input_slots.length := by
                rw [slotPairs_length outs _ hresall hbnd, hfed]
              have hlen : ((sortByIndex
                  (slotPairs outs (g.inboundEdges node.id))).map Prod.snd).length =
                  node.input_slots.length := by
                rw [List.length_map, sortByIndex_length, hplen]
              obtain ⟨writes, hrun, vs, hvs⟩ := hclean node hnodem
                ((sortByIndex (slotPairs outs (g.inboundEdges node.id))).map Prod.snd)
              obtain ⟨succs, hsuccs, hslen, hsmem, hscomp⟩ :=
                successorStates_spec g hwf node.id
              rw [runLoop_invoke fuel g node rest outs log _ writes []
                hres' hgather hlen hrun]
              rw [drainSubGraphs_nil]
              simp only [hvs, hsuccs]
              have hvslen : vs.length = node.output_slots.length := by
                rw [collectOutputs_ok_length _ 0 vs hvs, applyWrites_length]
              have hcontains' : ∀ x : NodeId,
                  containsOutput (insertOutput outs node.id vs) x =
                    (containsOutput outs x || (x == node.id)) :=
                fun x => containsOutput_insert outs node.id x vs
              have hInv' : LoopInv g (rest ++ succs) (insertOutput outs node.id vs) :=
                { qmem := fun n hn => by
                    rcases List.mem_append.mp hn with h | h
                    · exact hInv.qmem n (List.mem_cons_of_mem _ h)
                    · exact hsmem n h
                  readyq := fun n hn hun hr => by
                    have hnid : (n.id == node.id) = false := by
                      cases hx : (n.id == node.id)
                      · rfl
                      · rw [hcontains' n.id, hx] at hun
                        simp at hun
                    have hunold : containsOutput outs n.id = false := by
                      rw [hcontains' n.id, hnid] at hun
                      simpa using hun
                    by_cases hrold : readyB g outs n = true
                    · have hq := hInv.readyq n hn hunold hrold
                      rcases List.mem_cons.mp hq with rfl | h
                      · rw [hres'] at hunold
                        simp [beq_self_eq_true] at hnid
                      · exact List.mem_append.mpr (Or.inl h)
                    · have hrold' : readyB g outs n = false :=
                        Bool.eq_false_iff.mpr hrold
                      have hxx : ∃ e ∈ g.inboundEdges n.id,
                          containsOutput outs e.getOutputNode = false := by
                        have : ¬ ∀ e ∈ g.inboundEdges n.id,
                            containsOutput outs e.getOutputNode = true := by
                          intro hall
                          rw [show readyB g outs n = true by
                            simpa [readyB, List.all_eq_true] using hall] at hrold'
                          cases hrold'
                        push_neg at this
                        obtain ⟨e, he, hne⟩ := this
                        exact ⟨e, he, by simpa using hne⟩
                      obtain ⟨e, he, hmiss⟩ := hxx
                      have hnewres : containsOutput (insertOutput outs node.id vs)
                          e.getOutputNode = true := by
                        have := (List.all_eq_true.mp hr) e he
                        simpa using this
                      rw [hcontains' e.getOutputNode, hmiss] at hnewres
                      simp only [Bool.false_or] at hnewres
                      have hsrceq : e.getOutputNode = node.id := by
                        simpa using hnewres
                      have hedge : e ∈ g.edges := (List.mem_filter.mp he).1
                      have hdst : e.getInputNode = n.id := by
                        have := (List.mem_filter.mp he).2
                        simpa using this
                      exact List.mem_append.mpr (Or.inr
                        (hscomp n hn ⟨e, hedge, hsrceq, hdst⟩))
                  outs_len := fun id vs' hl => by
                    by_cases hid : id = node.id
                    · subst hid
                      rw [lookupOutput_insert_self] at hl
                      cases hl
                      refine ⟨node, hnodem, rfl, ?_⟩
                      rw [hvslen]
                      simp [outCap, hnotinput]
                    · rw [lookupOutput_insert_ne outs node.id id vs hid] at hl
                      exact hInv.outs_len id vs' hl
                  inres := fun i hi =>
                    containsOutput_insert_mono outs node.id i vs (hInv.inres i hi) }
              have hU : unresolvedCount g (insertOutput outs node.id vs) + 1 =
                  unresolvedCount g outs :=
                unresolvedCount_insert g outs node vs hwf.nodup hnodem hres'
              have hexp : (g.edges.length + 1) * unresolvedCount g outs =
                  (g.edges.length + 1) *
                    unresolvedCount g (insertOutput outs node.id vs) +
                    (g.edges.length + 1) := by
                rw [← hU]
                ring
              have h1 : loopV g (rest ++ succs) (insertOutput outs node.id vs) =
                  rest.length + succs.length + (g.edges.length + 1) *
                    unresolvedCount g (insertOutput outs node.id vs) := by
                simp only [loopV, List.length_append]
              have h2 : loopV g (node :: rest) outs =
                  rest.length + 1 + (g.edges.length + 1) *
                    unresolvedCount g outs := by
                simp only [loopV, List.length_cons]
              have h3 : succs.length ≤ g.edges.length := by
                rw [hslen]
                exact List.length_filter_le _ _
              have hVle : loopV g (rest ++ succs) (insertOutput outs node.id vs) + 1 ≤
                  loopV g (node :: rest) outs := by omega
              have hmul : (loopV g (rest ++ succs) (insertOutput outs node.id vs) + 1) * K =
                  loopV g (rest ++ succs) (insertOutput outs node.id vs) * K + K := by
                ring
              have hmulle : (loopV g (rest ++ succs)
                  (insertOutput outs node.id vs) + 1) * K ≤
                  loopV g (node :: rest) outs * K :=
                Nat.mul_le_mul_right K hVle
              have hrl : (rest ++ succs).length ≤
                  loopV g (rest ++ succs) (insertOutput outs node.id vs) := by
                simp only [loopV]
                exact Nat.le_add_right _ _
              have hidx := readyIdx_le_length g (insertOutput outs node.id vs)
                (rest ++ succs)
              obtain ⟨log', hloop, hcount⟩ := ih (rest ++ succs)
                (insertOutput outs node.id vs) (log ++ [node.id]) hInv'
                (by omega) (by omega)
              refine ⟨log', hloop, ?_⟩
              intro n hn
              rw [hcount n hn]
              by_cases hid : n.id = node.id
              · have hnn : n = node := id_inj_of_nodup g hwf.nodup n node hn hnodem hid
                rw [hnn, count_append_one, if_pos rfl, hcontains' node.id, hres']
                simp
              · rw [count_append_one, if_neg (fun h => hid h.symm)]
                rw [hcontains' n.id,
                  show (n.id == node.id) = false from beq_eq_false_iff_ne.mpr hid]
                simp
            · -- requeue: a dependency is missing
              have hreadyf : readyB g outs node = false :=
                Bool.eq_false_iff.mpr hready
              have hmiss : ∃ e ∈ g.inboundEdges node.id,
                  containsOutput outs e.getOutputNode = false := by
                have : ¬ ∀ e ∈ g.inboundEdges node.id,
                    containsOutput outs e.getOutputNode = true := by
                  intro hall
                  rw [show readyB g outs node = true by
                    simpa [readyB, List.all_eq_true] using hall] at hreadyf
                  cases hreadyf
                push_neg at this
                obtain ⟨e, he, hne⟩ := this
                exact ⟨e, he, by simpa using hne⟩
              have hgather := gatherDeps_missing g outs _ hsrc hbnd hmiss
              rw [runLoop_requeue fuel g node rest outs log hres' hgather]
              have hInv' : LoopInv g (rest ++ [node]) outs :=
                { qmem := fun n hn => by
                    rcases List.mem_append.mp hn with h | h
                    · exact hInv.qmem n (List.mem_cons_of_mem _ h)
                    · rw [List.mem_singleton.mp h]
                      exact hnodem
                  readyq := fun n hn hun hr => by
                    have hq := hInv.readyq n hn hun hr
                    rcases List.mem_cons.mp hq with rfl | h
                    · exact List.mem_append.mpr (Or.inr (List.mem_singleton.mpr rfl))
                    · exact List.mem_append.mpr (Or.inl h)
                  outs_len := hInv.outs_len
                  inres := hInv.inres }
              have hVeq : loopV g (rest ++ [node]) outs =
                  loopV g (node :: rest) outs := by
                simp only [loopV, List.length_append, List.length_cons,
                  List.length_nil]
              have hpred : resolvedOrReady g outs node = false := by
                simp [resolvedOrReady, hres', hreadyf]
              obtain ⟨w, hw, hwun, hwready⟩ := exists_ready_unresolved g hwf rank
                hrank (node :: rest) outs hInv (rank node.id) node hnodem
                (Nat.le_refl _) hres'
              have hwpred : resolvedOrReady g outs w = true := by
                simp [resolvedOrReady, hwready]
              have hwrest : w ∈ rest := by
                rcases List.mem_cons.mp hw with rfl | h
                · rw [hpred] at hwpred; cases hwpred
                · exact h
              have hidxc : readyIdx g outs (node :: rest) =
                  readyIdx g outs rest + 1 :=
                readyIdx_cons_false g outs node rest hpred
              have hidxa : readyIdx g outs (rest ++ [node]) =
                  readyIdx g outs rest :=
                readyIdx_append_left g outs rest [node] ⟨w, hwrest, hwpred⟩
              have hVmul : loopV g (rest ++ [node]) outs * K =
                  loopV g (node :: rest) outs * K := by rw [hVeq]
              obtain ⟨log', hloop, hcount⟩ := ih (rest ++ [node]) outs log hInv'
                (by omega) (by omega)
              exact ⟨log', hloop, hcount⟩

/-- An explicit fuel bound sufficient for any well-formed acyclic clean
run: with `B` bounding the loop measure, `B * (B + 1) + B + 2` steps always
suffice. -/
def runBound (g : Graph) : Nat :=
  (g.nodes.length + g.edges.length + (g.edges.length + 1) * g.nodes.length) *
      (g.nodes.length + g.edges.length + (g.edges.length + 1) * g.nodes.length + 1) +
    (g.nodes.length + g.edges.length + (g.edges.length + 1) * g.nodes.length) + 2

theorem inputNode_facts (g : Graph) (inode : NodeState)
    (h : g.inputNode = some inode) :
    g.input_node_id = some inode.id ∧ inode ∈ g.nodes := by
  unfold Graph.inputNode at h
  cases hi : g.input_node_id with
  | none => rw [hi] at h; cases h
  | some i =>
      rw [hi] at h
      simp only [Option.bind_some, Option.some_bind] at h
      have hid := getNodeState_some_id g i inode h
      exact ⟨congrArg some hid.symm, getNodeState_mem g i inode h⟩

theorem containsOutput_nil (x : NodeId) : containsOutput [] x = false := rfl

/-- The seeded invariant for a graph without an input node. -/
theorem initInv_no_input (g : Graph) (hwf : WellFormed g)
    (hin : g.input_node_id = none) :
    LoopInv g ((g.nodes.filter (fun n => n.input_slots.isEmpty)).reverse) [] := by
  refine ⟨?_, ?_, ?_, ?_⟩
  · intro n hn
    exact (List.mem_filter.mp (List.mem_reverse.mp hn)).1
  · intro n hn hun hr
    have hemp : g.inboundEdges n.id = [] := by
      cases hE : g.inboundEdges n.id with
      | nil => rfl
      | cons e es =>
          exfalso
          have := (List.all_eq_true.mp (by rw [readyB, hE] at hr; exact hr)) e
            (List.mem_cons_self e es)
          rw [containsOutput_nil] at this
          cases this
    have hfed := (hwf.fed n hn).resolve_left (by rw [hin]; intro h; cases h)
    rw [hemp] at hfed
    have : n.input_slots = [] := List.eq_nil_of_length_eq_zero hfed.symm
    refine List.mem_reverse.mpr (List.mem_filter.mpr ⟨hn, ?_⟩)
    simp [this]
  · intro id vs hl
    simp [lookupOutput, List.find?] at hl
  · intro i hi
    rw [hin] at hi
    cases hi
  
/-- The seeded invariant for a graph with an input node whose external
inputs validated. -/
theorem initInv_input (g : Graph) (hwf : WellFormed g) (inode : NodeState)
    (vs : List SlotValue) (succs : List NodeState)
    (hin : g.inputNode = some inode)
    (hvlen : vs.length = inode.input_slots.length)
    (hsuccs : g.successorStates inode.id = some succs)
    (hsmem : ∀ x ∈ succs, x ∈ g.nodes)
    (hscomp : ∀ n ∈ g.nodes, (∃ e ∈ g.edges, e.getOutputNode = inode.id ∧
      e.getInputNode = n.id) → n ∈ succs) :
    LoopInv g ((g.nodes.filter (fun n => n.input_slots.isEmpty)).reverse ++ succs)
      (insertOutput [] inode.id vs) := by
  obtain ⟨hiid, himem⟩ := inputNode_facts g inode hin
  have hcont : ∀ x : NodeId, containsOutput (insertOutput [] inode.id vs) x =
      (x == inode.id) := by
    intro x
    rw [containsOutput_insert, containsOutput_nil]
    simp
  refine ⟨?_, ?_, ?_, ?_⟩
  · intro n hn
    rcases List.mem_append.mp hn with h | h
    · exact (List.mem_filter.mp (List.mem_reverse.mp h)).1
    · exact hsmem n h
  · intro n hn hun hr
    have hnid : (n.id == inode.id) = false := by
      rw [← hcont n.id]; exact hun
    cases hE : g.inboundEdges n.id with
    | nil =>
        have hfed := (hwf.fed n hn).resolve_left (by
          rw [hiid]
          intro h
          have : inode.id = n.id := by injection h
          rw [show (n.id == inode.id) = true from by
            rw [this]; exact beq_self_eq_true _] at hnid
          cases hnid)
        rw [hE] at hfed
        have : n.input_slots = [] := List.eq_nil_of_length_eq_zero hfed.symm
        refine List.mem_append.mpr (Or.inl
          (List.mem_reverse.mpr (List.mem_filter.mpr ⟨hn, ?_⟩)))
        simp [this]
    | cons e es =>
        have he : e ∈ g.inboundEdges n.id := by rw [hE]; exact List.mem_cons_self e es
        have hres : containsOutput (insertOutput [] inode.id vs) e.getOutputNode
            = true := (List.all_eq_true.mp hr) e he
        rw [hcont] at hres
        have hsrceq : e.getOutputNode = inode.id := by simpa using hres
        have hedge : e ∈ g.edges := (List.mem_filter.mp he).1
        have hdst : e.getInputNode = n.id := by
          have := (List.mem_filter.mp he).2
          simpa using this
        exact List.mem_append.mpr (Or.inr (hscomp n hn ⟨e, hedge, hsrceq, hdst⟩))
  · intro id vs' hl
    by_cases hid : id = inode.id
    · subst hid
      rw [lookupOutput_insert_self] at hl
      cases hl
      refine ⟨inode, himem, rfl, ?_⟩
      rw [hvlen]
      simp [outCap, hiid]
    · rw [lookupOutput_insert_ne [] inode.id id vs hid] at hl
      simp [lookupOutput, List.find?] at hl
  · intro i hi
    rw [hiid] at hi
    have : inode.id = i := by injection hi
    rw [hcont i, ← this]
    exact beq_self_eq_true _

/-- C1's termination bound holds at the initial states. -/
theorem initial_measure_le (g : Graph) (q0 : List NodeState) (outs0 : Outputs)
    (hq0 : q0.length ≤ g.nodes.length + g.edges.length) :
    loopV g q0 outs0 ≤
      g.nodes.length + g.edges.length + (g.edges.length + 1) * g.nodes.length := by
  have hU : unresolvedCount g outs0 ≤ g.nodes.length := List.length_filter_le _ _
  have hmul : (g.edges.length + 1) * unresolvedCount g outs0 ≤
      (g.edges.length + 1) * g.nodes.length :=
    Nat.mul_le_mul_left _ hU
  simp only [loopV]
  omega

/-! ## C1 (corrected) -/

/-- Node X: no input slots, ordered after Y by a node edge. -/
def exC1X : NodeState :=
  { id := 0, type_name := "X", input_slots := [], output_slots := [],
    run := fun _ => .ok [] [] }

/-- Node Y: declares an input slot that no edge feeds — it can never be
enqueued, so its output is never recorded. -/
def exC1Y : NodeState :=
  { id := 1, type_name := "Y", input_slots := [⟨"i", .buffer⟩],
    output_slots := [], run := fun _ => .ok [] [] }

/-- An acyclic two-node graph on which `run_graph` loops forever: X is
seeded, pops, finds its node-edge dependency on Y unresolved, and is
requeued — and Y never resolves. -/
def exC1 : Graph := .mk [exC1X, exC1Y] [.nodeEdge 0 1] none []

theorem exC1_spin : ∀ fuel, runLoop fuel exC1 [exC1X] [] [] = .outOfFuel [] := by
  intro fuel
  induction fuel with
  | zero => rfl
  | succ f ih =>
      rw [runLoop_requeue f exC1 exC1X [] [] [] (by decide) rfl]
      simpa using ih

/-- Counterexample to C1 as stated: `exC1`'s edge set is acyclic, yet
`run_graph` never terminates — for every fuel the loop is still spinning
(the queue forever holds X, whose node-edge source Y has an unfed input
slot and thus never resolves).  Termination therefore needs more than
acyclicity: every enqueued node's dependencies must be satisfiable. -/
theorem claim_C1_counterexample :
    Acyclic exC1 ∧
    ∀ fuel, run_graph fuel exC1 none [] [] = .outOfFuel [] := by
  constructor
  · exact ⟨fun i => if i == 1 then 0 else 1, by decide⟩
  · intro fuel
    cases fuel with
    | zero => rfl
    | succ f =>
        rw [run_graph_no_input f exC1 none [] [] rfl]
        rw [show (exC1.nodes.filter (fun n => n.input_slots.isEmpty)).reverse
          = [exC1X] from rfl]
        exact exC1_spin f

/-- C1 as amended: for every graph whose edge set is acyclic and which is
well-formed (distinct node ids, edge endpoints in the graph, every
non-input node's input slots fed by inbound slot edges, slot-edge output
indices within the recorded capacity) with clean node implementations
(every run succeeds, writes all declared outputs, requests no sub-graphs),
`run_graph` terminates: beyond the explicit fuel bound `runBound` it
returns `ok`; every node is invoked exactly once per pass — with an input
node, every node other than the (pre-resolved, never-invoked) input node.
Second conjunct: a popped node whose output vector is already recorded in
`node_outputs` is skipped, so duplicate enqueues via multiple edges are
idempotent no-ops. -/
theorem claim_C1 :
    (∀ (g : Graph), WellFormed g → Acyclic g → CleanRuns g →
      ∀ (gname : Option String) (inputs : List SlotValue) (fuel : Nat),
        runBound g ≤ fuel →
        (g.input_node_id = none →
          ∃ log, run_graph fuel g gname inputs [] = .ok log ∧
            ∀ n ∈ g.nodes, log.count n.id = 1) ∧
        (∀ inode vs, g.inputNode = some inode →
          validateInputs inode.input_slots inputs gname 0 = .ok vs →
          ∃ log, run_graph fuel g gname inputs [] = .ok log ∧
            log.count inode.id = 0 ∧
            ∀ n ∈ g.nodes, n.id ≠ inode.id → log.count n.id = 1)) ∧
    (∀ (fuel : Nat) (g : Graph) (node : NodeState) (rest : List NodeState)
        (outs : Outputs) (log : List NodeId),
      containsOutput outs node.id = true →
      runLoop (fuel + 1) g (node :: rest) outs log =
        runLoop fuel g rest outs log) := by
  constructor
  · intro g hwf hacyc hclean gname inputs fuel hfuel
    obtain ⟨rank, hrank⟩ := hacyc
    set B := g.nodes.length + g.edges.length +
      (g.edges.length + 1) * g.nodes.length with hB
    have hrb : runBound g = B * (B + 1) + B + 2 := by rw [hB]; rfl
    rw [hrb] at hfuel
    obtain ⟨f, rfl⟩ : ∃ f, fuel = f + 1 := ⟨fuel - 1, by omega⟩
    constructor
    · intro hin
      rw [run_graph_no_input f g gname inputs [] hin]
      have hq0 : ((g.nodes.filter (fun n => n.input_slots.isEmpty)).reverse).length
          ≤ g.nodes.length + g.edges.length := by
        rw [List.length_reverse]
        have := List.length_filter_le (fun n => n.input_slots.isEmpty) g.nodes
        omega
      have hV0 := initial_measure_le g _ [] hq0
      rw [← hB] at hV0
      have hInv := initInv_no_input g hwf hin
      have hidx0 := readyIdx_le_length g []
        ((g.nodes.filter (fun n => n.input_slots.isEmpty)).reverse)
      have hmul : loopV g
          ((g.nodes.filter (fun n => n.input_slots.isEmpty)).reverse) [] * (B + 1)
          ≤ B * (B + 1) := Nat.mul_le_mul_right _ hV0
      obtain ⟨log, hrun, hcount⟩ := runLoop_complete g hwf rank hrank hclean
        (B + 1) f _ [] [] hInv (by omega) (by omega)
      refine ⟨log, hrun, fun n hn => ?_⟩
      have hc := hcount n hn
      rw [containsOutput_nil] at hc
      simpa using hc
    · intro inode vs hin hval
      obtain ⟨succs, hsuccs, hslen, hsmem, hscomp⟩ :=
        successorStates_spec g hwf inode.id
      rw [run_graph_input_seed f g gname inputs [] inode vs succs hin hval hsuccs]
      have hvlen := validateInputs_ok_length _ _ _ _ _ hval
      have hInv := initInv_input g hwf inode vs succs hin hvlen hsuccs hsmem hscomp
      have hq0 : ((g.nodes.filter (fun n => n.input_slots.isEmpty)).reverse
          ++ succs).length ≤ g.nodes.length + g.edges.length := by
        rw [List.length_append, List.length_reverse]
        have h1 := List.length_filter_le (fun n => n.input_slots.isEmpty) g.nodes
        have h2 : succs.length ≤ g.edges.length := by
          rw [hslen]
          exact List.length_filter_le _ _
        omega
      have hV0 := initial_measure_le g _ (insertOutput [] inode.id vs) hq0
      rw [← hB] at hV0
      have hidx0 := readyIdx_le_length g (insertOutput [] inode.id vs)
        ((g.nodes.filter (fun n => n.input_slots.isEmpty)).reverse ++ succs)
      have hmul : loopV g
          ((g.nodes.filter (fun n => n.input_slots.isEmpty)).reverse ++ succs)
          (insertOutput [] inode.id vs) * (B + 1) ≤ B * (B + 1) :=
        Nat.mul_le_mul_right _ hV0
      obtain ⟨log, hrun, hcount⟩ := runLoop_complete g hwf rank hrank hclean
        (B + 1) f _ (insertOutput [] inode.id vs) [] hInv (by omega) (by omega)
      obtain ⟨hiid, himem⟩ := inputNode_facts g inode hin
      have hcont : ∀ x : NodeId, containsOutput (insertOutput [] inode.id vs) x =
          (x == inode.id) := by
        intro x
        rw [containsOutput_insert, containsOutput_nil]
        simp
      refine ⟨log, hrun, ?_, ?_⟩
      · have hc := hcount inode himem
        rw [hcont inode.id, beq_self_eq_true] at hc
        simpa using hc
      · intro n hn hne
        have hc := hcount n hn
        rw [hcont n.id, beq_eq_false_iff_ne.mpr hne] at hc
        simpa using hc
  · intro fuel g node rest outs log h
    exact runLoop_skip fuel g node rest outs log h

/-! ### Witness graph: a diamond with clean constant nodes -/

def exDiaA : NodeState :=
  { id := 0, type_name := "A", input_slots := [],
    output_slots := [⟨"o", .buffer⟩], run := fun _ => .ok [(0, .buffer 7)] [] }

def exDiaB : NodeState :=
  { id := 1, type_name := "B", input_slots := [⟨"x", .buffer⟩],
    output_slots := [⟨"o", .buffer⟩], run := fun _ => .ok [(0, .buffer 8)] [] }

def exDiaC : NodeState :=
  { id := 2, type_name := "C", input_slots := [⟨"x", .buffer⟩],
    output_slots := [⟨"o", .buffer⟩], run := fun _ => .ok [(0, .buffer 9)] [] }

def exDiaD : NodeState :=
  { id := 3, type_name := "D", input_slots := [⟨"x", .buffer⟩, ⟨"y", .buffer⟩],
    output_slots := [], run := fun _ => .ok [] [] }

/-- Scenario D: the diamond A → B, A → C, B → D, C → D over slot edges. -/
def exDiamond : Graph :=
  .mk [exDiaA, exDiaB, exDiaC, exDiaD]
    [.slotEdge 1 0 0 0, .slotEdge 2 0 0 0, .slotEdge 3 0 1 0, .slotEdge 3 1 2 0]
    none []

/-- Witness for the amended C1: the diamond graph is well-formed, acyclic
(rank = id) and clean, so the run terminates with every one of its four
nodes invoked exactly once. -/
theorem claim_C1_witness :
    ∃ log, run_graph (runBound exDiamond) exDiamond none [] [] = .ok log ∧
      ∀ n ∈ exDiamond.nodes, log.count n.id = 1 := by
  have hout : ∀ dst ii src oi, Edge.slotEdge dst ii src oi ∈ exDiamond.edges →
      ∀ n ∈ exDiamond.nodes, n.id = src → oi < outCap exDiamond n := by
    intro dst ii src oi hmem
    rw [show exDiamond.edges = [Edge.slotEdge 1 0 0 0, Edge.slotEdge 2 0 0 0,
      Edge.slotEdge 3 0 1 0, Edge.slotEdge 3 1 2 0] from rfl] at hmem
    simp only [List.mem_cons, List.not_mem_nil, or_false,
      Edge.slotEdge.injEq] at hmem
    rcases hmem with ⟨rfl, rfl, rfl, rfl⟩ | ⟨rfl, rfl, rfl, rfl⟩ |
      ⟨rfl, rfl, rfl, rfl⟩ | ⟨rfl, rfl, rfl, rfl⟩ <;> decide
  have hwf : WellFormed exDiamond :=
    ⟨by decide, by decide, by decide, by decide, hout⟩
  have hclean : CleanRuns exDiamond := by
    intro n hn ins
    rw [show exDiamond.nodes = [exDiaA, exDiaB, exDiaC, exDiaD] from rfl] at hn
    simp only [List.mem_cons, List.not_mem_nil, or_false] at hn
    rcases hn with rfl | rfl | rfl | rfl
    · exact ⟨[(0, .buffer 7)], rfl, [.buffer 7], rfl⟩
    · exact ⟨[(0, .buffer 8)], rfl, [.buffer 8], rfl⟩
    · exact ⟨[(0, .buffer 9)], rfl, [.buffer 9], rfl⟩
    · exact ⟨[], rfl, [], rfl⟩
  exact ((claim_C1.1 exDiamond hwf ⟨fun i => i, by decide⟩ hclean none []
    (runBound exDiamond) (Nat.le_refl _)).1 rfl)

end RenderGraphRunner
